import Mathlib

set_option maxHeartbeats 1000000
set_option maxRecDepth 4000
set_option linter.unreachableTactic false
set_option linter.unusedTactic false
set_option linter.unnecessarySeqFocus false

/-!
Shallow embedding of `treegen4gpt.py` (repository `E-B3rry/treegen4gpt`,
file `src/treegen4gpt.py`).

Python strings are modelled as `List Char`, Python `None` as `Option`,
and raised exceptions as `Except`.  The standard-library functions the
program calls (`str.strip`, `str.split`, `str.replace`, file `readline`,
`int(...)`, `str(...)` of ints and bools, `re.sub`,
`tokenize.generate_tokens`, and the `ast` module) are modelled
explicitly below; each such model carries a doc comment naming what it
models and any restriction of its domain.
-/

/-- The single-quote character (code point 39), used when building
Python source snippets as `List Char` data. -/
def sqc : Char := Char.ofNat 39

/-- The double-quote character (code point 34). -/
def dqc : Char := Char.ofNat 34

/-- The backslash character (code point 92). -/
def bsc : Char := Char.ofNat 92

/-- Python `str.isspace`-style whitespace as used by `str.strip()` and
`str.split()` with no separator: space, tab, newline, carriage return,
vertical tab, form feed and the four separator characters 28-31 —
exactly the ASCII characters CPython's `str.isspace` accepts. -/
def isPySpace (c : Char) : Bool :=
  c == ' ' || c == '\t' || c == '\n' || c == '\r' || c == Char.ofNat 11 || c == Char.ofNat 12 ||
  c == Char.ofNat 28 || c == Char.ofNat 29 || c == Char.ofNat 30 || c == Char.ofNat 31

/-- All characters ASCII: the settings models (`str.strip`,
`str.split`, `int`, text-mode line reading) are exact on ASCII text;
non-ASCII digit and whitespace characters are outside the modelled
domain. -/
def asciiOnly (l : List Char) : Bool := l.all (fun c => c.toNat < 128)

/-- Model of Python `str.strip()`: drop leading and trailing whitespace. -/
def pyStrip (l : List Char) : List Char :=
  ((l.dropWhile isPySpace).reverse.dropWhile isPySpace).reverse

/-- Helper for `pySplitWs`: accumulates the current word (reversed). -/
def pySplitWsGo (cur : List Char) : List Char → List (List Char)
  | [] => if cur = [] then [] else [cur.reverse]
  | c :: r =>
    if isPySpace c then
      if cur = [] then pySplitWsGo [] r else cur.reverse :: pySplitWsGo [] r
    else
      pySplitWsGo (c :: cur) r

/-- Model of Python `str.split()` with no argument: split on runs of
whitespace, dropping empty fields. -/
def pySplitWs (l : List Char) : List (List Char) :=
  pySplitWsGo [] l

/-- Model of Python `s.split(', ')`: split on each left-to-right
non-overlapping occurrence of comma-space.  `''.split(', ')` is `['']`. -/
def pySplitCommaSpace : List Char → List (List Char)
  | ',' :: ' ' :: rest => [] :: pySplitCommaSpace rest
  | c :: rest =>
    match pySplitCommaSpace rest with
    | h :: t => (c :: h) :: t
    | [] => [[c]]
  | [] => [[]]

/-- Model of Python `', '.join(parts)`. -/
def joinCommaSpace : List (List Char) → List Char
  | [] => []
  | [x] => x
  | x :: y :: rest => x ++ ',' :: ' ' :: joinCommaSpace (y :: rest)

/-- Model of repeated Python `f.readline()` calls on a file opened in
text mode: universal-newline handling ends a line at `'\n'`, at
`'\r\n'` and at a lone `'\r'`, and translates each ending to `'\n'` in
the returned line; the file content is cut into such lines (a final
chunk with no line ending is kept as-is); reading past the end yields
the empty string, modelled by `List.getD` with default `[]` at the
call sites. -/
def pyReadlinesGo (cur : List Char) : List Char → List (List Char)
  | [] => if cur = [] then [] else [cur.reverse]
  | '\r' :: '\n' :: r => (cur.reverse ++ ['\n']) :: pyReadlinesGo [] r
  | '\r' :: r => (cur.reverse ++ ['\n']) :: pyReadlinesGo [] r
  | '\n' :: r => (cur.reverse ++ ['\n']) :: pyReadlinesGo [] r
  | c :: r => pyReadlinesGo (c :: cur) r

/-- File content as the list of lines `readline` would return. -/
def pyReadlines (l : List Char) : List (List Char) :=
  pyReadlinesGo [] l

/-- The literal marker `<newline>` used by `save_settings` /
`load_settings` to encode newlines inside the description. -/
def newlineMarker : List Char := ['<', 'n', 'e', 'w', 'l', 'i', 'n', 'e', '>']

/-- Model of `description.replace('\n', '<newline>')` in `save_settings`
(line 261): the pattern is a single character, so the replacement maps
each character independently. -/
def encodeDesc : List Char → List Char
  | [] => []
  | '\n' :: r => newlineMarker ++ encodeDesc r
  | c :: r => c :: encodeDesc r

/-- Model of `description.replace('<newline>', '\n')` in `load_settings`
(line 285): left-to-right non-overlapping replacement of the marker. -/
def decodeDesc : List Char → List Char
  | '<' :: 'n' :: 'e' :: 'w' :: 'l' :: 'i' :: 'n' :: 'e' :: '>' :: rest => '\n' :: decodeDesc rest
  | c :: rest => c :: decodeDesc rest
  | [] => []

/-- Decimal digit characters. -/
def natDigitChar : Nat → Char
  | 0 => '0' | 1 => '1' | 2 => '2' | 3 => '3' | 4 => '4'
  | 5 => '5' | 6 => '6' | 7 => '7' | 8 => '8' | _ => '9'

/-- Fuel-driven decimal printer (fuel bounds the number of digits). -/
def showNatFuel : Nat → Nat → List Char
  | 0, _ => []
  | fuel + 1, n =>
    if n < 10 then [natDigitChar n]
    else showNatFuel fuel (n / 10) ++ [natDigitChar (n % 10)]

/-- Model of Python `str(n)` / f-string formatting for a nonnegative int. -/
def pyShowNat (n : Nat) : List Char := showNatFuel (n + 1) n

/-- Model of Python `str(b)` / f-string formatting for a bool. -/
def pyShowBool : Bool → List Char
  | true => ['T', 'r', 'u', 'e']
  | false => ['F', 'a', 'l', 's', 'e']

/-- Value of a decimal digit character. -/
def digitVal (c : Char) : Nat := c.toNat - 48

/-- Parse a nonempty all-digit string to a natural number. -/
def parseDigits (ds : List Char) : Option Nat :=
  if ds = [] then none
  else if ds.all Char.isDigit then some (ds.foldl (fun a c => a * 10 + digitVal c) 0)
  else none

/-- Continuation of an integer literal after at least one digit:
further digits, or single underscores that must sit between two digits
— CPython `int` accepts `1_0` but rejects `1__0`, `_1` and `1_`. -/
def intDigitsGo : Nat → List Char → Option Nat
  | acc, [] => some acc
  | acc, '_' :: d :: r2 => if d.isDigit then intDigitsGo (acc * 10 + digitVal d) r2 else none
  | _, ['_'] => none
  | acc, c :: r => if c.isDigit then intDigitsGo (acc * 10 + digitVal c) r else none

/-- The unsigned body of an integer literal: at least one digit, then
digits with single underscores between them. -/
def parseIntBody : List Char → Option Nat
  | d :: r => if d.isDigit then intDigitsGo (digitVal d) r else none
  | [] => none

/-- Model of Python `int(s)` on an already-stripped ASCII string (every
call site strips first, and `int`'s own surrounding-whitespace set is
contained in what `strip()` removed): an optional sign followed by at
least one digit, with single underscores allowed between digits;
`none` models a raised `ValueError`. -/
def pyParseInt : List Char → Option Int
  | '-' :: ds => (parseIntBody ds).map (fun n => -(n : Int))
  | '+' :: ds => (parseIntBody ds).map (fun n => (n : Int))
  | ds => (parseIntBody ds).map (fun n => (n : Int))

/-- Model of `remove_extra_line_jumps` (lines 124-132), i.e. of
`re.sub(r'\n\x7b3,\x7d', '\n\n', code)`: the regex greedily matches each
maximal run of 3 or more consecutive newline characters and replaces it
with exactly two newlines. -/
def reljEmit (pending : Nat) : List Char :=
  if pending ≥ 3 then ['\n', '\n'] else List.replicate pending '\n'

/-- Scan of `remove_extra_line_jumps`: `pending` counts the current
newline run; a finished run is emitted through `reljEmit`. -/
def reljGo (pending : Nat) : List Char → List Char
  | [] => reljEmit pending
  | '\n' :: r => reljGo (pending + 1) r
  | c :: r => reljEmit pending ++ c :: reljGo 0 r

/-- The function `remove_extra_line_jumps` of the source. -/
def remove_extra_line_jumps (code : List Char) : List Char :=
  reljGo 0 code

/-- Split a string at each newline character, newline not kept (used to
state which lines of a text are blank). -/
def splitAtNewlines : List Char → List (List Char)
  | [] => [[]]
  | '\n' :: rest => [] :: splitAtNewlines rest
  | c :: rest =>
    match splitAtNewlines rest with
    | h :: t => (c :: h) :: t
    | [] => [[c]]

/-! ## Model of the `ast` module fragment used by `remove_function_body`

The transformer `FunctionBodyRemover` (source lines 95-110) only
inspects statement-level structure: whether a node is a (possibly
async) function definition, and whether the first statement of its body
is a bare string-literal expression (`ast.Expr` around an `ast.Str`,
i.e. a string `ast.Constant`).  Expressions are never rewritten, so a
small expression type suffices. -/

/-- Python expressions (the fragment needed by the embedded AST). -/
inductive PyExpr : Type where
  | constStr (s : List Char)
  | constInt (n : Int)
  | constNone
  | name (x : List Char)
  deriving DecidableEq

mutual
/-- Python statements, mirroring the `ast` nodes the program can meet.
Bodies are `PyBody` (a list of statements) so that mutual structural
recursion and induction are available. -/
inductive PyStmt : Type where
  | functionDef (nm : List Char) (args : List (List Char)) (body : PyBody)
  | asyncFunctionDef (nm : List Char) (args : List (List Char)) (body : PyBody)
  | classDef (nm : List Char) (body : PyBody)
  | exprStmt (e : PyExpr)
  | assign (target : List Char) (value : PyExpr)
  | ret (e : Option PyExpr)
  | passStmt
  | ifStmt (cond : PyExpr) (thn : PyBody) (els : PyBody)
  deriving DecidableEq
/-- A statement list (a `body` field of the Python AST). -/
inductive PyBody : Type where
  | nil
  | cons (s : PyStmt) (rest : PyBody)
  deriving DecidableEq
end

/-- The body replacement performed by `visit_FunctionDef` /
`visit_AsyncFunctionDef` (lines 97-101 and 105-109): if the body is
nonempty and its first statement is an `ast.Expr` whose value is an
`ast.Str`, the new body is that docstring statement followed by
`ast.parse("pass").body[0]` (a `pass`); otherwise the new body is the
single `pass` statement. -/
def reduceBody : PyBody → PyBody
  | .cons (.exprStmt (.constStr s)) _ =>
      .cons (.exprStmt (.constStr s)) (.cons .passStmt .nil)
  | _ => .cons .passStmt .nil

/-- Every statement and body has positive size (for termination). -/
def sizeOf_pyBody_pos (b : PyBody) : 0 < sizeOf b := by
  cases b <;> simp_arith

/-- Size of a list is positive (default `SizeOf`). -/
def sizeOf_list_pos {α : Type} [SizeOf α] (l : List α) : 0 < sizeOf l := by
  cases l <;> simp_arith

/-- Size bound on `reduceBody`, used for the termination argument of the
transformer: the replaced body is smaller than the surrounding
function-definition node. -/
def sizeOf_reduceBody_lt (b : PyBody) : sizeOf (reduceBody b) < 3 + sizeOf b := by
  match b with
  | .cons (.exprStmt (.constStr s)) rest =>
    have := sizeOf_pyBody_pos rest
    simp [reduceBody] <;> omega
  | .nil => simp [reduceBody] <;> omega
  | .cons .passStmt rest => simp [reduceBody] <;> omega
  | .cons (.functionDef nm a bd) rest => simp [reduceBody] <;> omega
  | .cons (.asyncFunctionDef nm a bd) rest => simp [reduceBody] <;> omega
  | .cons (.classDef nm bd) rest => simp [reduceBody] <;> omega
  | .cons (.exprStmt (.constInt n)) rest => simp [reduceBody] <;> omega
  | .cons (.exprStmt .constNone) rest => simp [reduceBody] <;> omega
  | .cons (.exprStmt (.name x)) rest => simp [reduceBody] <;> omega
  | .cons (.assign t v) rest => simp [reduceBody] <;> omega
  | .cons (.ret e) rest => simp [reduceBody] <;> omega
  | .cons (.ifStmt c t e) rest => simp [reduceBody] <;> omega

mutual
/-- The `NodeTransformer.visit` dispatch of `FunctionBodyRemover`: the
two custom visitors first replace the body (`reduceBody`) and then call
`generic_visit`, which rebuilds every child; other statements get the
default `generic_visit`, which visits nested statement lists.
Expressions carry no statements, so `generic_visit` leaves them
unchanged. -/
def visitStmt : PyStmt → PyStmt
  | .functionDef nm args body => .functionDef nm args (visitBody (reduceBody body))
  | .asyncFunctionDef nm args body => .asyncFunctionDef nm args (visitBody (reduceBody body))
  | .classDef nm body => .classDef nm (visitBody body)
  | .ifStmt c thn els => .ifStmt c (visitBody thn) (visitBody els)
  | .exprStmt e => .exprStmt e
  | .assign t v => .assign t v
  | .ret e => .ret e
  | .passStmt => .passStmt
termination_by s => sizeOf s
decreasing_by
  all_goals simp_wf
  · have h1 := sizeOf_reduceBody_lt body
    have h2 := sizeOf_list_pos nm
    have h3 := sizeOf_list_pos args
    omega
  · have h1 := sizeOf_reduceBody_lt body
    have h2 := sizeOf_list_pos nm
    have h3 := sizeOf_list_pos args
    omega
  all_goals omega
/-- The transformer mapped over a statement list, as `generic_visit`
does with statement-list fields. -/
def visitBody : PyBody → PyBody
  | .nil => .nil
  | .cons s rest => .cons (visitStmt s) (visitBody rest)
termination_by b => sizeOf b
decreasing_by
  all_goals simp_wf
  all_goals omega
end

/-- A body is nonempty (the Python grammar requires every `def`,
`class` and `if` suite to hold at least one statement). -/
def bodyNonempty : PyBody → Bool
  | .nil => false
  | .cons _ _ => true

mutual
/-- Syntactic validity of a statement, i.e. the invariant the Python
grammar imposes on trees: every suite is nonempty.  A tree returned by
`ast.parse` satisfies it, and `ast.unparse` of a tree satisfying it is
parseable source text. -/
def wfStmt : PyStmt → Bool
  | .functionDef _ _ b => bodyNonempty b && wfBody b
  | .asyncFunctionDef _ _ b => bodyNonempty b && wfBody b
  | .classDef _ b => bodyNonempty b && wfBody b
  | .ifStmt _ thn els => bodyNonempty thn && wfBody thn && wfBody els
  | _ => true
/-- Syntactic validity of a statement list. -/
def wfBody : PyBody → Bool
  | .nil => true
  | .cons s rest => wfStmt s && wfBody rest
end

mutual
/-- A statement together with every statement nested below it. -/
def stmtSub : PyStmt → List PyStmt
  | .functionDef nm a b => .functionDef nm a b :: bodySub b
  | .asyncFunctionDef nm a b => .asyncFunctionDef nm a b :: bodySub b
  | .classDef nm b => .classDef nm b :: bodySub b
  | .ifStmt c thn els => .ifStmt c thn els :: (bodySub thn ++ bodySub els)
  | s => [s]
/-- All statements occurring in a statement list, at any depth. -/
def bodySub : PyBody → List PyStmt
  | .nil => []
  | .cons s rest => stmtSub s ++ bodySub rest
end

/-- Shape required of function definitions after the transformation:
the body is either a string-constant statement followed by a single
`pass`, or a single `pass`. -/
def reducedShape : PyStmt → Bool
  | .functionDef _ _ b =>
    (match b with
     | .cons (.exprStmt (.constStr _)) (.cons .passStmt .nil) => true
     | .cons .passStmt .nil => true
     | _ => false)
  | .asyncFunctionDef _ _ b =>
    (match b with
     | .cons (.exprStmt (.constStr _)) (.cons .passStmt .nil) => true
     | .cons .passStmt .nil => true
     | _ => false)
  | _ => true




/-- Model of Python `str(n)` for an arbitrary int. -/
def pyShowInt (n : Int) : List Char :=
  if n < 0 then '-' :: pyShowNat n.natAbs else pyShowNat n.toNat

/-- Indentation used by `ast.unparse`: four spaces per level. -/
def indentStr (n : Nat) : List Char := List.replicate (4 * n) ' '

/-- Rendering of an expression, as `ast.unparse` would produce it for
the embedded fragment (string constants are rendered single-quoted;
the inputs considered contain no characters needing escapes). -/
def renderExpr : PyExpr → List Char
  | .constStr s => sqc :: s ++ [sqc]
  | .constInt n => pyShowInt n
  | .constNone => ['N', 'o', 'n', 'e']
  | .name x => x

mutual
/-- Model of `ast.unparse` on a statement of the embedded fragment, at
a given indentation level (each statement renders its own lines, no
trailing newline). -/
def renderStmt (ind : Nat) : PyStmt → List Char
  | .functionDef nm args b =>
    indentStr ind ++ ['d', 'e', 'f', ' '] ++ nm ++ ['('] ++ joinCommaSpace args ++ [')', ':', '\n'] ++
      renderBody (ind + 1) b
  | .asyncFunctionDef nm args b =>
    indentStr ind ++ ['a', 's', 'y', 'n', 'c', ' ', 'd', 'e', 'f', ' '] ++ nm ++ ['('] ++
      joinCommaSpace args ++ [')', ':', '\n'] ++ renderBody (ind + 1) b
  | .classDef nm b =>
    indentStr ind ++ ['c', 'l', 'a', 's', 's', ' '] ++ nm ++ [':', '\n'] ++ renderBody (ind + 1) b
  | .exprStmt e => indentStr ind ++ renderExpr e
  | .assign t v => indentStr ind ++ t ++ [' ', '=', ' '] ++ renderExpr v
  | .ret none => indentStr ind ++ ['r', 'e', 't', 'u', 'r', 'n']
  | .ret (some e) => indentStr ind ++ ['r', 'e', 't', 'u', 'r', 'n', ' '] ++ renderExpr e
  | .passStmt => indentStr ind ++ ['p', 'a', 's', 's']
  | .ifStmt c thn els =>
    indentStr ind ++ ['i', 'f', ' '] ++ renderExpr c ++ [':', '\n'] ++ renderBody (ind + 1) thn ++
      (match els with
       | .nil => []
       | _ => '\n' :: indentStr ind ++ ['e', 'l', 's', 'e', ':', '\n'] ++ renderBody (ind + 1) els)
/-- Statements of a suite, joined by newlines. -/
def renderBody (ind : Nat) : PyBody → List Char
  | .nil => []
  | .cons s .nil => renderStmt ind s
  | .cons s (.cons s2 rest) => renderStmt ind s ++ '\n' :: renderBody ind (.cons s2 rest)
end

/-- Model of `ast.unparse` on a module body. -/
def pyUnparse (m : PyBody) : List Char := renderBody 0 m

/-- Model of `remove_function_body` (lines 88-121).  `ast.parse` is a
standard-library service, so its outcome on `code` is passed in as
`parseResult`: `Except.error e` models a raised `SyntaxError` with
message `e`, `Except.ok tree` a successful parse.  The result pairs the
returned text with the error message printed by the `except` branch
(`none` when nothing is printed). -/
def remove_function_body (parseResult : Except (List Char) PyBody) (code : List Char) :
    List Char × Option (List Char) :=
  match parseResult with
  | .error e => (code, some e)
  | .ok tree => (pyUnparse (visitBody tree), none)

/-! ## Model of the settings persistence (`save_settings` / `load_settings`) -/

/-- Convenience: characters of a string literal. -/
def s2l (s : String) : List Char := s.toList

deriving instance DecidableEq for Except

/-- The constant `DEFAULT_IGNORED_FOLDERS` (line 17).  The Python value
is a `set`; it is modelled as the list of elements in the literal's
written order (only membership is ever claim-relevant). -/
def DEFAULT_IGNORED_FOLDERS : List (List Char) :=
  [s2l ".git", s2l ".idea", s2l "__pycache__", s2l "venv", s2l "img", s2l "assessment"]

/-- The constant `DEFAULT_IGNORED_FILES` (line 18), modelled like
`DEFAULT_IGNORED_FOLDERS`. -/
def DEFAULT_IGNORED_FILES : List (List Char) :=
  [s2l ".gitignore", s2l "treegen4gpt.py", s2l "README.md", s2l "LICENSE", s2l "requirements.txt"]

/-- The constant `ALLOWED_EXTENSIONS` (line 19). -/
def ALLOWED_EXTENSIONS : List (List Char) :=
  [s2l ".py", s2l ".pyw", s2l ".pyx", s2l ".pyi", s2l ".pyd", s2l ".pxd", s2l ".pxi",
   s2l ".pyp", s2l ".pyt", s2l ".py3", s2l ".pyde", s2l ".pyst", s2l ".pyz", s2l ".pyc"]

/-- The state handled by `save_settings` / `load_settings`.  Python
`Path` keys are modelled by their string form, Python dicts by
insertion-ordered association lists, and the two ignored `set`s by
element lists (see `DEFAULT_IGNORED_FOLDERS`). -/
structure SettingsData where
  description : List Char
  selected_files : List (List Char × Bool)
  remove_comments : List (List Char × Bool)
  remove_functions : List (List Char × Bool)
  ignored_folders : List (List Char)
  ignored_files : List (List Char)
  deriving DecidableEq

/-- Membership test of a key in a modelled dict (`file in d`). -/
def hasKey (l : List (List Char × Bool)) (k : List Char) : Bool :=
  l.any (fun p => p.1 == k)

/-- Lookup in a modelled dict (`d[file]`; the call sites guard the key). -/
def lookupB (l : List (List Char × Bool)) (k : List Char) : Bool :=
  ((l.find? (fun p => p.1 == k)).map Prod.snd).getD false

/-- Assignment `d[k] = v` on a modelled dict: update in place when the
key exists, else append. -/
def dictInsert (l : List (List Char × Bool)) (k : List Char) (v : Bool) :
    List (List Char × Bool) :=
  if l.any (fun p => p.1 == k) then l.map (fun p => if p.1 == k then (p.1, v) else p)
  else l ++ [(k, v)]

/-- The literal `True` as written by `str(True)`. -/
def trueLit : List Char := ['T', 'r', 'u', 'e']

/-- The text (newline excluded) of the per-file line `save_settings`
writes for one entry of `selected_files`. -/
def fileLineOf (S : SettingsData) (p : List Char × Bool) : List Char :=
  p.1 ++ ' ' :: pyShowBool p.2 ++ ' ' :: pyShowBool (lookupB S.remove_comments p.1) ++
    ' ' :: pyShowBool (lookupB S.remove_functions p.1)

/-- The per-file lines written by the loop of `save_settings`
(lines 264-266): one line per entry of `selected_files`, written only
when the key is present in both flag dicts. -/
def settingsFileLines (S : SettingsData) : List Char :=
  (S.selected_files.map (fun p =>
    if hasKey S.remove_comments p.1 && hasKey S.remove_functions p.1 then
      fileLineOf S p ++ ['\n']
    else [])).flatten

/-- Model of `save_settings` (lines 247-270): the full content written
to the save file. -/
def save_settings (S : SettingsData) : List Char :=
  encodeDesc S.description ++ '\n' ::
    (pyShowNat S.selected_files.length ++ '\n' ::
      (settingsFileLines S ++
        (joinCommaSpace S.ignored_folders ++ '\n' ::
          (joinCommaSpace S.ignored_files ++ ['\n']))))

/-- Both ends of a line are free of strippable whitespace (so that
`readline().strip()` leaves it intact). -/
def noWsEnds (x : List Char) : Bool :=
  (match x.head? with | none => true | some c => !isPySpace c) &&
  (match x.getLast? with | none => true | some c => !isPySpace c)

/-- The exception `load_settings` can raise: `int(...)` on a malformed
count line raises `ValueError` (nothing in `load_settings` catches it). -/
inductive PyErr : Type where
  | valueError
  deriving DecidableEq

/-- One iteration of the `for i in range(num_files)` loop of
`load_settings` (lines 290-296): split the line on whitespace and, when
at least four fields are present, store the three flags under the path
field. -/
def loadFileLineStep (lines : List (List Char))
    (acc : List (List Char × Bool) × List (List Char × Bool) × List (List Char × Bool))
    (i : Nat) :
    List (List Char × Bool) × List (List Char × Bool) × List (List Char × Bool) :=
  let fields := pySplitWs (pyStrip (lines.getD (2 + i) []))
  if fields.length ≥ 4 then
    let fp := fields.getD 0 []
    (dictInsert acc.1 fp (fields.getD 1 [] == trueLit),
     dictInsert acc.2.1 fp (fields.getD 2 [] == trueLit),
     dictInsert acc.2.2 fp (fields.getD 3 [] == trueLit))
  else acc

/-- The `for i in range(num_files)` loop of `load_settings`: `i` is the
next line index offset, `cnt` the number of iterations left. -/
def loadFilesLoop (lines : List (List Char)) (i cnt : Nat)
    (acc : List (List Char × Bool) × List (List Char × Bool) × List (List Char × Bool)) :
    List (List Char × Bool) × List (List Char × Bool) × List (List Char × Bool) :=
  match cnt with
  | 0 => acc
  | c + 1 => loadFilesLoop lines (i + 1) c (loadFileLineStep lines acc i)

/-- Model of `load_settings` (lines 273-304).  The argument models the
save file: `none` when `Path(SAVE_FILE_NAME).exists()` is false, else
`some content`.  A `ValueError` escaping from `int(...)` is the
`.error` outcome; Python `set(x.split(', '))` is modelled by the split
list itself; the `for i in range(num_files)` loop is `loadFilesLoop`. -/
def load_settings (file : Option (List Char)) : Except PyErr (Option SettingsData) :=
  match file with
  | none => .ok none
  | some content =>
    let lines := pyReadlines content
    let description := decodeDesc (pyStrip (lines.getD 0 []))
    match pyParseInt (pyStrip (lines.getD 1 [])) with
    | none => .error .valueError
    | some num =>
      let n := num.toNat
      let trip := loadFilesLoop lines 0 n ([], [], [])
      let gline := pyStrip (lines.getD (2 + n) [])
      let fline := pyStrip (lines.getD (3 + n) [])
      let igf := if gline ≠ [] then pySplitCommaSpace gline else DEFAULT_IGNORED_FOLDERS
      let igfi := if fline ≠ [] then pySplitCommaSpace fline else DEFAULT_IGNORED_FILES
      .ok (some ⟨description, trip.1, trip.2.1, trip.2.2, igf, igfi⟩)

/-! ## Model of `get_arborescence` -/

mutual
/-- A filesystem item as `Path.iterdir` presents it: a directory with
its children (in enumeration order) or a plain file. -/
inductive FSEntry : Type where
  | dir (nm : List Char) (children : FSForest)
  | file (nm : List Char)
  deriving DecidableEq
/-- A directory listing in enumeration order. -/
inductive FSForest : Type where
  | nil
  | cons (e : FSEntry) (rest : FSForest)
  deriving DecidableEq
end

/-- The `item.name` of an entry. -/
def entryName : FSEntry → List Char
  | .dir nm _ => nm
  | .file nm => nm

/-- The test `any(item.name.endswith(ext) for ext in ALLOWED_EXTENSIONS)`
(line 41). -/
def hasAllowedExt (nm : List Char) : Bool :=
  ALLOWED_EXTENSIONS.any (fun ext => ext.isSuffixOf nm)

mutual
/-- One iteration of the `for item in path.iterdir()` loop of
`get_arborescence` (lines 35-42): the text this item contributes. -/
def arborEntry (igf igfi : List (List Char)) (ind : Nat) : FSEntry → List Char
  | .dir nm children =>
    if igfi.contains nm then []
    else if igf.contains nm then []
    else List.replicate (2 * ind) ' ' ++ '-' :: ' ' :: nm ++ '\n' ::
      get_arborescence children igf igfi (ind + 1)
  | .file nm =>
    if igfi.contains nm then []
    else if hasAllowedExt nm then List.replicate (2 * ind) ' ' ++ '-' :: ' ' :: nm ++ ['\n']
    else []
/-- Model of `get_arborescence` (lines 24-43) applied to the children
of a directory (the Python function receives the directory `Path` and
iterates its entries). -/
def get_arborescence (children : FSForest) (igf igfi : List (List Char)) (ind : Nat) : List Char :=
  match children with
  | .nil => []
  | .cons e rest => arborEntry igf igfi ind e ++ get_arborescence rest igf igfi ind
end

mutual
/-- Specification-side listing: the entries (depth, name, is-file flag)
that the arborescence text lists for one item, following the spec's
words in section 4.3. -/
def arborEntriesE (igf igfi : List (List Char)) (ind : Nat) : FSEntry → List (Nat × List Char × Bool)
  | .dir nm children =>
    if igfi.contains nm then []
    else if igf.contains nm then []
    else (ind, nm, false) :: arborEntriesF children igf igfi (ind + 1)
  | .file nm =>
    if igfi.contains nm then []
    else if hasAllowedExt nm then [(ind, nm, true)]
    else []
/-- Specification-side listing for a directory listing. -/
def arborEntriesF (children : FSForest) (igf igfi : List (List Char)) (ind : Nat) :
    List (Nat × List Char × Bool) :=
  match children with
  | .nil => []
  | .cons e rest => arborEntriesE igf igfi ind e ++ arborEntriesF rest igf igfi ind
end

/-- Rendering of one listed entry as a text line. -/
def renderArborLine (p : Nat × List Char × Bool) : List Char :=
  List.replicate (2 * p.1) ' ' ++ '-' :: ' ' :: p.2.1 ++ ['\n']

/-- Rendering of the listed entries as the arborescence text. -/
def renderArborEntries (l : List (Nat × List Char × Bool)) : List Char :=
  (l.map renderArborLine).flatten

/-- There is a file named `nm` at relative directory path `p` inside
the forest. -/
inductive HasFileAt : FSForest → List (List Char) → List Char → Prop where
  | head (nm : List Char) (rest : FSForest) : HasFileAt (.cons (.file nm) rest) [] nm
  | tail (e : FSEntry) (rest : FSForest) (p : List (List Char)) (nm : List Char) :
      HasFileAt rest p nm → HasFileAt (.cons e rest) p nm
  | under (d : List Char) (cs : FSForest) (rest : FSForest) (p : List (List Char)) (nm : List Char) :
      HasFileAt cs p nm → HasFileAt (.cons (.dir d cs) rest) (d :: p) nm

/-- There is a directory named `nm` at relative directory path `p`
inside the forest. -/
inductive HasDirAt : FSForest → List (List Char) → List Char → Prop where
  | head (nm : List Char) (cs : FSForest) (rest : FSForest) : HasDirAt (.cons (.dir nm cs) rest) [] nm
  | tail (e : FSEntry) (rest : FSForest) (p : List (List Char)) (nm : List Char) :
      HasDirAt rest p nm → HasDirAt (.cons e rest) p nm
  | under (d : List Char) (cs : FSForest) (rest : FSForest) (p : List (List Char)) (nm : List Char) :
      HasDirAt cs p nm → HasDirAt (.cons (.dir d cs) rest) (d :: p) nm

/-! ## Model of `is_parent_ignored` -/

/-- A `pathlib.Path` value: an absolute-path flag and the component
list (the final component of a file path is the file name).  `Path(p)`
for the relative paths handled by the program normalizes to this form;
`PyPath.dot` is `Path('.')`. -/
structure PyPath where
  isAbs : Bool
  comps : List (List Char)
  deriving DecidableEq

/-- The path `Path('.')`. -/
def PyPath.dot : PyPath := ⟨false, []⟩

/-- `p.parent`: drop the last component; `Path('.')` and the filesystem
root are their own parents. -/
def PyPath.parent (p : PyPath) : PyPath :=
  match p.comps with
  | [] => p
  | _ => ⟨p.isAbs, p.comps.dropLast⟩

/-- `p.name`: the last component, or the empty string for `Path('.')`
and the root. -/
def PyPath.pname (p : PyPath) : List Char :=
  (p.comps.getLast?).getD []

/-- The `while current != Path('.')` loop of `is_parent_ignored`
(lines 192-197), with explicit fuel; `none` means the fuel was
exhausted before the loop exited (for absolute paths the loop never
exits unless an ancestor name matches). -/
def ipiLoop (fuel : Nat) (cur : PyPath) (igf : List (List Char)) : Option Bool :=
  match fuel with
  | 0 => none
  | fuel + 1 =>
    if cur = PyPath.dot then some false
    else if igf.contains cur.pname then some true
    else ipiLoop fuel cur.parent igf

/-- Model of `is_parent_ignored` (lines 184-197; the static method
`App.is_parent_ignored`, lines 397-411, is the identical code). -/
def is_parent_ignored (fuel : Nat) (file : PyPath) (igf : List (List Char)) : Option Bool :=
  ipiLoop fuel file.parent igf

/-! ## Model of `tokenize.generate_tokens` and the stripper

`remove_comments_and_docstrings` (lines 46-85) drives
`tokenize.generate_tokens`.  The tokenizer below models it on a
restricted domain and returns `none` outside it: ASCII source, space
indentation (no tabs), no carriage returns or form feeds, no backslash
continuations, no newline while a bracket is open (so no implicit line
continuation), string literals on one line without escapes or prefix
letters, input empty or ending in a newline.  Multi-character operators
are lexed one character at a time; the pieces are adjacent and of the
same token type, so the stripper's output is unchanged by this.  On
the modelled domain the emitted token types, strings and coordinates
are those of CPython's `generate_tokens`. -/

/-- Python token types (the subset the program can meet). -/
inductive TokType : Type where
  | NAME | NUMBER | OP | STRING | COMMENT | NEWLINE | NL | INDENT | DEDENT | ENDMARKER
  deriving DecidableEq

/-- A token: type, text, and start/end coordinates (1-based line,
0-based column), as produced by `generate_tokens`. -/
structure Tok where
  typ : TokType
  tstr : List Char
  sL : Nat
  sC : Nat
  eL : Nat
  eC : Nat
  deriving DecidableEq

/-- Identifier start characters. -/
def isIdentStart (c : Char) : Bool := c.isAlpha || c == '_'

/-- Identifier continuation characters. -/
def isIdentCh (c : Char) : Bool := c.isAlpha || c.isDigit || c == '_'

/-- Single-character operator and delimiter characters. -/
def opChars : List Char :=
  ['(', ')', '[', ']', ':', '=', ',', '.', '+', '-', '*', '/', '<', '>', '%', ';', '@', '&', '|', '^', '~']

/-- Opening brackets tracked for the implicit-continuation check. -/
def isOpenBr (c : Char) : Bool := c == '(' || c == '['

/-- Closing brackets. -/
def isCloseBr (c : Char) : Bool := c == ')' || c == ']'

/-- Scan the tail of a one-line single-quoted string: everything up to
and including the closing quote; fails on newline, backslash or
end of line. -/
def scanSingleStr (q : Char) : List Char → Option (List Char × List Char)
  | [] => none
  | c :: rest =>
    if c = q then some ([q], rest)
    else if c = '\n' ∨ c = bsc then none
    else (scanSingleStr q rest).map (fun pr => (c :: pr.1, pr.2))

/-- Scan the tail of a one-line triple-quoted string: everything up to
and including the closing triple quote. -/
def scanTripleStr (q : Char) : List Char → Option (List Char × List Char)
  | a :: b :: c :: rest =>
    if a = q ∧ b = q ∧ c = q then some ([q, q, q], rest)
    else if a = '\n' ∨ a = bsc then none
    else (scanTripleStr q (b :: c :: rest)).map (fun pr => (a :: pr.1, pr.2))
  | _ => none

/-- Lex the content of one physical line after its indentation, starting
at column `col`; `depth` is the open-bracket depth, which must return to
zero at the end of the line.  The fuel only needs to exceed the number
of remaining characters.  Emits the trailing `NEWLINE` token. -/
def lexToks (ln : Nat) : Nat → Nat → List Char → Nat → Option (List Tok)
  | 0, _, _, _ => none
  | fuel + 1, col, cs, depth =>
    match cs with
    | [] => if depth = 0 then some [⟨.NEWLINE, ['\n'], ln, col, ln, col + 1⟩] else none
    | c :: rest =>
      if c = ' ' then lexToks ln fuel (col + 1) rest depth
      else if c = '#' then
        if depth = 0 then
          some [⟨.COMMENT, c :: rest, ln, col, ln, col + (c :: rest).length⟩,
                ⟨.NEWLINE, ['\n'], ln, col + (c :: rest).length, ln, col + (c :: rest).length + 1⟩]
        else none
      else if isIdentStart c then
        let run := (c :: rest).takeWhile isIdentCh
        (lexToks ln fuel (col + run.length) ((c :: rest).drop run.length) depth).map
          (fun ts => ⟨.NAME, run, ln, col, ln, col + run.length⟩ :: ts)
      else if c.isDigit then
        let run := (c :: rest).takeWhile Char.isDigit
        (lexToks ln fuel (col + run.length) ((c :: rest).drop run.length) depth).map
          (fun ts => ⟨.NUMBER, run, ln, col, ln, col + run.length⟩ :: ts)
      else if c = sqc ∨ c = dqc then
        if rest.take 2 = [c, c] then
          match scanTripleStr c (rest.drop 2) with
          | none => none
          | some (body, rem) =>
            let full := c :: c :: c :: body
            (lexToks ln fuel (col + full.length) rem depth).map
              (fun ts => ⟨.STRING, full, ln, col, ln, col + full.length⟩ :: ts)
        else
          match scanSingleStr c rest with
          | none => none
          | some (body, rem) =>
            let full := c :: body
            (lexToks ln fuel (col + full.length) rem depth).map
              (fun ts => ⟨.STRING, full, ln, col, ln, col + full.length⟩ :: ts)
      else if opChars.contains c then
        let depth2 := if isOpenBr c then depth + 1 else if isCloseBr c then depth - 1 else depth
        (lexToks ln fuel (col + 1) rest depth2).map
          (fun ts => ⟨.OP, [c], ln, col, ln, col + 1⟩ :: ts)
      else none

/-- Emit `DEDENT` tokens until the stack level equals `w`; fails on an
inconsistent dedent (CPython raises `IndentationError`). -/
def dedentsTo (ln w : Nat) : List Nat → Option (List Tok × List Nat)
  | [] => none
  | s :: rest =>
    if w < s then (dedentsTo ln w rest).map (fun pr => (⟨.DEDENT, [], ln, w, ln, w⟩ :: pr.1, pr.2))
    else if w = s then some ([], s :: rest)
    else none

/-- Indent handling at the start of a logical line: emit `INDENT` or
`DEDENT` tokens and update the indentation stack. -/
def processIndent (ln w : Nat) (stack : List Nat) : Option (List Tok × List Nat) :=
  match stack with
  | s :: _ =>
    if w > s then some ([⟨.INDENT, List.replicate w ' ', ln, 0, ln, w⟩], w :: stack)
    else dedentsTo ln w stack
  | [] => none

/-- Tokenize one physical line (without its newline character): blank
lines and comment-only lines yield `NL` (no indent processing), other
lines process indentation and then their tokens. -/
def processLine (ln : Nat) (line : List Char) (stack : List Nat) : Option (List Tok × List Nat) :=
  let w := (line.takeWhile (fun c => c == ' ')).length
  let rest := line.dropWhile (fun c => c == ' ')
  match rest with
  | [] => some ([⟨.NL, ['\n'], ln, w, ln, w + 1⟩], stack)
  | '#' :: _ =>
    some ([⟨.COMMENT, rest, ln, w, ln, w + rest.length⟩,
           ⟨.NL, ['\n'], ln, w + rest.length, ln, w + rest.length + 1⟩], stack)
  | _ =>
    match processIndent ln w stack with
    | none => none
    | some (itoks, stack2) =>
      match lexToks ln (rest.length + 1) w rest 0 with
      | none => none
      | some btoks => some (itoks ++ btoks, stack2)

/-- Split the input into physical lines, requiring each line (hence the
whole input) to end with a newline; the newline is not kept. -/
def splitNLGo (cur : List Char) : List Char → Option (List (List Char))
  | [] => if cur = [] then some [] else none
  | '\n' :: r => (splitNLGo [] r).map (fun ls => cur.reverse :: ls)
  | c :: r => splitNLGo (c :: cur) r

/-- Physical lines of the input (see `splitNLGo`). -/
def splitNL (cs : List Char) : Option (List (List Char)) := splitNLGo [] cs

/-- Tokenize the lines in order, threading the indentation stack. -/
def goLines : Nat → List (List Char) → List Nat → Option (List Tok × List Nat)
  | _, [], stack => some ([], stack)
  | ln, l :: ls, stack =>
    match processLine ln l stack with
    | none => none
    | some (ts, st2) =>
      match goLines (ln + 1) ls st2 with
      | none => none
      | some (ts2, st3) => some (ts ++ ts2, st3)

/-- Closing `DEDENT` tokens at end of input. -/
def finalDedents (ln : Nat) : List Nat → List Tok
  | [] => []
  | s :: rest => if s > 0 then ⟨.DEDENT, [], ln, 0, ln, 0⟩ :: finalDedents ln rest else []

/-- Model of `tokenize.generate_tokens` on the modelled domain (see the
section comment). -/
def tokenizePy (cs : List Char) : Option (List Tok) :=
  match splitNL cs with
  | none => none
  | some lines =>
    match goLines 1 lines [0] with
    | none => none
    | some (ts, st) =>
      some (ts ++ finalDedents (lines.length + 1) st ++
            [⟨.ENDMARKER, [], lines.length + 1, 0, lines.length + 1, 0⟩])

/-- The token loop of `remove_comments_and_docstrings` (lines 56-85):
state is `prev_toktype`, `last_lineno`, `last_col`; for each token the
gap since the previous end position is re-created from the column
delta, comments are dropped, strings are dropped when directly after an
`INDENT` token or when triple-quoted, everything else is kept. -/
def rcadGo : TokType → Int → Nat → List Tok → List Char
  | _, _, _, [] => []
  | prev, lastL, lastC, t :: ts =>
    let lc : Nat := if (t.sL : Int) > lastL then 0 else lastC
    let gap : List Char := if t.sC > lc then List.replicate (t.sC - lc) ' ' else []
    let piece : List Char :=
      if t.typ = .COMMENT then []
      else if t.typ = .STRING then
        if prev ≠ .INDENT then
          if t.tstr.take 3 = [dqc, dqc, dqc] ∨ t.tstr.take 3 = [sqc, sqc, sqc] then []
          else t.tstr
        else []
      else t.tstr
    gap ++ piece ++ rcadGo t.typ (t.eL : Int) t.eC ts

/-- The function `remove_comments_and_docstrings` of the source
(lines 46-85); `none` models a tokenization error surfacing (the
function catches nothing), as well as inputs outside the modelled
tokenizer domain. -/
def remove_comments_and_docstrings (code : List Char) : Option (List Char) :=
  (tokenizePy code).map (rcadGo .INDENT (-1) 0)

/-- The replaced body is a fixed point of the transformer (its two
statements are a bare string constant and `pass`, which `generic_visit`
leaves unchanged). -/
theorem visitBody_reduceBody (b : PyBody) : visitBody (reduceBody b) = reduceBody b := by
  cases b with
  | nil => simp [reduceBody, visitBody, visitStmt]
  | cons s rest =>
    cases s with
    | exprStmt e =>
      cases e <;> simp [reduceBody, visitBody, visitStmt]
    | _ => simp [reduceBody, visitBody, visitStmt]

/-- Unfolding of the transformer on a (sync) function definition. -/
theorem visitStmt_functionDef (nm : List Char) (args : List (List Char)) (b : PyBody) :
    visitStmt (.functionDef nm args b) = .functionDef nm args (reduceBody b) := by
  simp [visitStmt, visitBody_reduceBody]

/-- Unfolding of the transformer on an async function definition. -/
theorem visitStmt_asyncFunctionDef (nm : List Char) (args : List (List Char)) (b : PyBody) :
    visitStmt (.asyncFunctionDef nm args b) = .asyncFunctionDef nm args (reduceBody b) := by
  simp [visitStmt, visitBody_reduceBody]

/-- The transformer does not change emptiness of a statement list. -/
theorem visitBody_eq_nil_iff (b : PyBody) : visitBody b = .nil ↔ b = .nil := by
  cases b <;> simp [visitBody]

/-- The two possible replaced bodies are well formed and nonempty. -/
theorem wf_reduceBody (b : PyBody) :
    bodyNonempty (reduceBody b) = true ∧ wfBody (reduceBody b) = true := by
  cases b with
  | nil => simp [reduceBody, bodyNonempty, wfBody, wfStmt]
  | cons s rest =>
    cases s with
    | exprStmt e =>
      cases e <;> simp [reduceBody, bodyNonempty, wfBody, wfStmt]
    | _ => simp [reduceBody, bodyNonempty, wfBody, wfStmt]

mutual
/-- The transformer preserves syntactic validity of a statement. -/
theorem wf_visitStmt : ∀ s : PyStmt, wfStmt s = true → wfStmt (visitStmt s) = true
  | .functionDef nm a b, _ => by
    rw [visitStmt_functionDef]
    simp [wfStmt, wf_reduceBody b]
  | .asyncFunctionDef nm a b, _ => by
    rw [visitStmt_asyncFunctionDef]
    simp [wfStmt, wf_reduceBody b]
  | .classDef nm b, h => by
    simp [wfStmt] at h
    have h1 := wf_visitBody b h.2
    have h3 : bodyNonempty (visitBody b) = true := by
      cases b with
      | nil => simp [bodyNonempty] at h
      | cons s rest => simp [visitBody, bodyNonempty]
    simp [visitStmt, wfStmt, h1, h3]
  | .ifStmt c thn els, h => by
    simp [wfStmt] at h
    have h1 := wf_visitBody thn h.1.2
    have h2 := wf_visitBody els h.2
    have h3 : bodyNonempty (visitBody thn) = true := by
      cases thn with
      | nil => simp [bodyNonempty] at h
      | cons s rest => simp [visitBody, bodyNonempty]
    simp [visitStmt, wfStmt, h1, h2, h3]
  | .exprStmt e, h => by simpa [visitStmt, wfStmt] using h
  | .assign t v, h => by simpa [visitStmt, wfStmt] using h
  | .ret e, h => by simpa [visitStmt, wfStmt] using h
  | .passStmt, h => by simpa [visitStmt, wfStmt] using h
/-- The transformer preserves syntactic validity of a statement list. -/
theorem wf_visitBody : ∀ b : PyBody, wfBody b = true → wfBody (visitBody b) = true
  | .nil, _ => by simp [visitBody, wfBody]
  | .cons s rest, h => by
    simp [wfBody] at h
    simp [visitBody, wfBody]
    exact ⟨wf_visitStmt s h.1, wf_visitBody rest h.2⟩
end

/-- A replaced function body only contains shape-correct statements
(used for the global shape theorem). -/
theorem reducedShape_mem_reduceBody (b : PyBody) :
    ∀ s ∈ bodySub (reduceBody b), reducedShape s = true := by
  cases b with
  | nil => simp [reduceBody, bodySub, stmtSub, reducedShape]
  | cons s rest =>
    cases s with
    | exprStmt e =>
      cases e <;> simp [reduceBody, bodySub, stmtSub, reducedShape]
    | _ => simp [reduceBody, bodySub, stmtSub, reducedShape]

/-- A function definition whose body has been replaced satisfies the
docstring-plus-pass shape. -/
theorem reducedShape_functionDef (nm : List Char) (a : List (List Char)) (b : PyBody) :
    reducedShape (.functionDef nm a (reduceBody b)) = true ∧
      reducedShape (.asyncFunctionDef nm a (reduceBody b)) = true := by
  cases b with
  | nil => simp [reduceBody, reducedShape]
  | cons s rest =>
    cases s with
    | exprStmt e =>
      cases e <;> simp [reduceBody, reducedShape]
    | _ => simp [reduceBody, reducedShape]

mutual
/-- After the transformation, every statement below a statement
satisfies the reduced shape. -/
theorem shape_visitStmt : ∀ s' : PyStmt, ∀ s ∈ stmtSub (visitStmt s'), reducedShape s = true
  | .functionDef nm a b, s, hs => by
    rw [visitStmt_functionDef] at hs
    simp [stmtSub] at hs
    rcases hs with h | h
    · subst h; exact (reducedShape_functionDef nm a b).1
    · exact reducedShape_mem_reduceBody b s h
  | .asyncFunctionDef nm a b, s, hs => by
    rw [visitStmt_asyncFunctionDef] at hs
    simp [stmtSub] at hs
    rcases hs with h | h
    · subst h; exact (reducedShape_functionDef nm a b).2
    · exact reducedShape_mem_reduceBody b s h
  | .classDef nm b, s, hs => by
    simp [visitStmt, stmtSub] at hs
    rcases hs with h | h
    · subst h; simp [reducedShape]
    · exact shape_visitBody b s h
  | .ifStmt c thn els, s, hs => by
    simp [visitStmt, stmtSub] at hs
    rcases hs with h | h | h
    · subst h; simp [reducedShape]
    · exact shape_visitBody thn s h
    · exact shape_visitBody els s h
  | .exprStmt e, s, hs => by
    simp [visitStmt, stmtSub] at hs; subst hs; simp [reducedShape]
  | .assign t v, s, hs => by
    simp [visitStmt, stmtSub] at hs; subst hs; simp [reducedShape]
  | .ret e, s, hs => by
    simp [visitStmt, stmtSub] at hs; subst hs; simp [reducedShape]
  | .passStmt, s, hs => by
    simp [visitStmt, stmtSub] at hs; subst hs; simp [reducedShape]
/-- After the transformation, every statement below a statement list
satisfies the reduced shape. -/
theorem shape_visitBody : ∀ b : PyBody, ∀ s ∈ bodySub (visitBody b), reducedShape s = true
  | .nil, s, hs => by simp [visitBody, bodySub] at hs
  | .cons st rest, s, hs => by
    simp [visitBody, bodySub] at hs
    rcases hs with h | h
    · exact shape_visitStmt st s h
    · exact shape_visitBody rest s h
end

/-- A body that does not start with a bare string-literal statement is
replaced by the single `pass` statement. -/
theorem reduceBody_no_docstring (b : PyBody)
    (h : ∀ s rest, b ≠ .cons (.exprStmt (.constStr s)) rest) :
    reduceBody b = .cons .passStmt .nil := by
  cases b with
  | nil => simp [reduceBody]
  | cons s rest =>
    cases s with
    | exprStmt e =>
      cases e with
      | constStr s0 => exact absurd rfl (h s0 rest)
      | _ => simp [reduceBody]
    | _ => simp [reduceBody]

/-- Characters other than newline pass through the scanner unchanged. -/
theorem reljGo_append_no_newline (a : List Char) (h : '\n' ∉ a) (l : List Char) :
    reljGo 0 (a ++ l) = a ++ reljGo 0 l := by
  induction a with
  | nil => simp
  | cons c a ih =>
    simp at h
    rw [List.cons_append, reljGo]
    · simp [reljEmit, ih h.2]
    · exact fun hc => h.1 hc.symm

/-- Reading a newline run adds its length to the pending count. -/
theorem reljGo_replicate (p k : Nat) (l : List Char) :
    reljGo p (List.replicate k '\n' ++ l) = reljGo (p + k) l := by
  induction k generalizing p with
  | zero => simp
  | succ k ih =>
    rw [List.replicate_succ, List.cons_append, reljGo, ih]
    congr 1
    omega

/-- The scanner is the identity on newline-free text. -/
theorem reljGo_id_no_newline (l : List Char) (h : '\n' ∉ l) : reljGo 0 l = l := by
  induction l with
  | nil => simp [reljGo, reljEmit]
  | cons c l ih =>
    simp at h
    rw [reljGo]
    · simp [reljEmit, ih h.2]
    · exact fun hc => h.1 hc.symm

/-- A maximal newline run surrounded by newline-free text collapses to
two newlines when it has length at least 3, and is kept otherwise. -/
theorem relj_run (a b : List Char) (ha : '\n' ∉ a) (hb : '\n' ∉ b) (n : Nat) :
    remove_extra_line_jumps (a ++ List.replicate n '\n' ++ b) =
      a ++ reljEmit n ++ b := by
  rw [remove_extra_line_jumps, List.append_assoc, reljGo_append_no_newline a ha,
    reljGo_replicate 0 n b]
  cases b with
  | nil => simp [reljGo]
  | cons c b2 =>
    have hc : ¬ (c = '\n') := by
      intro h; exact hb (h ▸ List.mem_cons_self c b2)
    have hb2 : '\n' ∉ b2 := fun h => hb (List.mem_cons_of_mem c h)
    rw [reljGo]
    · rw [reljGo_id_no_newline b2 hb2]
      simp
    · exact hc

/-- C2 counterexample: the input `a`, blank, blank, `b` (three
consecutive newline characters, i.e. a run of exactly 2 consecutive
blank lines) is changed by `remove_extra_line_jumps` — the run becomes
a single blank line — although the claim says an input with a run of
exactly 2 consecutive blank lines is unchanged and that only runs of 3
or more blank lines are collapsed. -/
theorem claim_C2_counterexample :
    splitAtNewlines ['a', '\n', '\n', '\n', 'b'] = [['a'], [], [], ['b']] ∧
    remove_extra_line_jumps ['a', '\n', '\n', '\n', 'b'] = ['a', '\n', '\n', 'b'] ∧
    remove_extra_line_jumps ['a', '\n', '\n', '\n', 'b'] ≠ ['a', '\n', '\n', '\n', 'b'] := by
  refine ⟨by decide, by decide, by decide⟩

/-- C2 (amended): `remove_extra_line_jumps` collapses every maximal run
of 3 or more consecutive newline characters — i.e. of 2 or more
consecutive blank lines — to exactly two newlines (one blank line), and
keeps shorter runs; in particular 5 consecutive blank lines (6
newlines) become exactly 1 blank line, and a single blank line (2
newlines) is unchanged. -/
theorem claim_C2 (a b : List Char) (ha : '\n' ∉ a) (hb : '\n' ∉ b) :
    (remove_extra_line_jumps (a ++ List.replicate 6 '\n' ++ b) =
      a ++ List.replicate 2 '\n' ++ b) ∧
    (remove_extra_line_jumps (a ++ List.replicate 2 '\n' ++ b) =
      a ++ List.replicate 2 '\n' ++ b) ∧
    (∀ n, 3 ≤ n →
      remove_extra_line_jumps (a ++ List.replicate n '\n' ++ b) =
        a ++ List.replicate 2 '\n' ++ b) ∧
    (∀ n, n ≤ 2 →
      remove_extra_line_jumps (a ++ List.replicate n '\n' ++ b) =
        a ++ List.replicate n '\n' ++ b) := by
  refine ⟨?_, ?_, fun n hn => ?_, fun n hn => ?_⟩
  · rw [relj_run a b ha hb 6]; simp [reljEmit]
  · rw [relj_run a b ha hb 2]; simp [reljEmit]
  · rw [relj_run a b ha hb n]
    have : reljEmit n = List.replicate 2 '\n' := by
      simp [reljEmit]; omega
    rw [this]
  · rw [relj_run a b ha hb n]
    have : reljEmit n = List.replicate n '\n' := by
      have : ¬ n ≥ 3 := by omega
      simp [reljEmit, this]
    rw [this]

/-- C2 witness: the amended theorem applied at `a`, six newlines, `b`. -/
theorem claim_C2_witness :
    remove_extra_line_jumps (['a'] ++ List.replicate 6 '\n' ++ ['b']) =
      ['a'] ++ List.replicate 2 '\n' ++ ['b'] :=
  (claim_C2 ['a'] ['b'] (by decide) (by decide)).1

/-- C4: the transformer of `remove_function_body` rewrites every
function or method definition (sync or async): when the first body
statement is a bare string-literal expression, the new body is exactly
that docstring statement followed by one `pass`; otherwise the new body
is exactly one `pass`.  Moreover every function definition anywhere in
a transformed module has one of these two body shapes. -/
theorem claim_C4 :
    (∀ (nm : List Char) (args : List (List Char)) (s : List Char) (rest : PyBody),
      visitStmt (.functionDef nm args (.cons (.exprStmt (.constStr s)) rest)) =
        .functionDef nm args (.cons (.exprStmt (.constStr s)) (.cons .passStmt .nil))) ∧
    (∀ (nm : List Char) (args : List (List Char)) (s : List Char) (rest : PyBody),
      visitStmt (.asyncFunctionDef nm args (.cons (.exprStmt (.constStr s)) rest)) =
        .asyncFunctionDef nm args (.cons (.exprStmt (.constStr s)) (.cons .passStmt .nil))) ∧
    (∀ (nm : List Char) (args : List (List Char)) (b : PyBody),
      (∀ s rest, b ≠ .cons (.exprStmt (.constStr s)) rest) →
        visitStmt (.functionDef nm args b) = .functionDef nm args (.cons .passStmt .nil)) ∧
    (∀ (nm : List Char) (args : List (List Char)) (b : PyBody),
      (∀ s rest, b ≠ .cons (.exprStmt (.constStr s)) rest) →
        visitStmt (.asyncFunctionDef nm args b) = .asyncFunctionDef nm args (.cons .passStmt .nil)) ∧
    (∀ m : PyBody, ∀ s ∈ bodySub (visitBody m), reducedShape s = true) := by
  refine ⟨fun nm args s rest => ?_, fun nm args s rest => ?_,
    fun nm args b h => ?_, fun nm args b h => ?_, shape_visitBody⟩
  · rw [visitStmt_functionDef]; simp [reduceBody]
  · rw [visitStmt_asyncFunctionDef]; simp [reduceBody]
  · rw [visitStmt_functionDef, reduceBody_no_docstring b h]
  · rw [visitStmt_asyncFunctionDef, reduceBody_no_docstring b h]

/-- C4 witness: a function with a docstring and a return statement, a
function with no docstring, and the shape of every definition in a
transformed two-function module. -/
theorem claim_C4_witness :
    (visitStmt (.functionDef ['f'] [] (.cons (.exprStmt (.constStr ['d']))
        (.cons (.ret none) .nil))) =
      .functionDef ['f'] [] (.cons (.exprStmt (.constStr ['d'])) (.cons .passStmt .nil))) ∧
    (visitStmt (.functionDef ['g'] [] (.cons (.ret none) .nil)) =
      .functionDef ['g'] [] (.cons .passStmt .nil)) ∧
    (∀ s ∈ bodySub (visitBody (.cons (.functionDef ['g'] [] (.cons (.ret none) .nil)) .nil)),
      reducedShape s = true) :=
  ⟨claim_C4.1 ['f'] [] ['d'] (.cons (.ret none) .nil),
   claim_C4.2.2.1 ['g'] [] (.cons (.ret none) .nil) (by simp),
   claim_C4.2.2.2.2 (.cons (.functionDef ['g'] [] (.cons (.ret none) .nil)) .nil)⟩

/-- C5: the transformation of `remove_function_body` preserves
syntactic validity: a well-formed module body (every suite nonempty,
which is what the grammar requires of a parse result and what makes
`ast.unparse` produce parseable text) is again well formed after the
rewrite. -/
theorem claim_C5 (m : PyBody) (h : wfBody m = true) : wfBody (visitBody m) = true :=
  wf_visitBody m h

/-- C5 witness: a concrete well-formed module stays well formed. -/
theorem claim_C5_witness :
    wfBody (.cons (.functionDef ['f'] [] (.cons (.exprStmt (.constStr ['d']))
        (.cons (.ret none) .nil))) .nil) = true ∧
    wfBody (visitBody (.cons (.functionDef ['f'] [] (.cons (.exprStmt (.constStr ['d']))
        (.cons (.ret none) .nil))) .nil)) = true :=
  ⟨by decide, claim_C5 (.cons (.functionDef ['f'] [] (.cons (.exprStmt (.constStr ['d']))
      (.cons (.ret none) .nil))) .nil) (by decide)⟩

/-- C6: when parsing fails (`ast.parse` raises `SyntaxError`),
`remove_function_body` returns exactly the original input text and
reports the parse error; when parsing succeeds it returns the re-
rendered transformed tree — so a parse failure never yields partially
transformed text. -/
theorem claim_C6 :
    (∀ (e code : List Char), remove_function_body (.error e) code = (code, some e)) ∧
    (∀ (m : PyBody) (code : List Char),
      remove_function_body (.ok m) code = (pyUnparse (visitBody m), none)) :=
  ⟨fun e code => rfl, fun m code => rfl⟩

/-- C8 counterexample: a present but corrupt save file whose file-count
line is `xx` makes `load_settings` raise `ValueError` (the `int(...)`
call is not guarded), instead of returning the no-settings result
`None` as the claim states. -/
theorem claim_C8_counterexample :
    load_settings (some (s2l "d" ++ '\n' :: s2l "xx" ++ '\n' :: s2l "f" ++ '\n' :: s2l "g" ++ ['\n'])) =
      .error .valueError ∧
    load_settings (some (s2l "d" ++ '\n' :: s2l "xx" ++ '\n' :: s2l "f" ++ '\n' :: s2l "g" ++ ['\n'])) ≠
      .ok none := by
  refine ⟨by decide, by decide⟩

/-- C8 (amended): a missing save file is treated as "no saved settings"
(`None`, no error); but a corrupt file is not: on ASCII file contents
whose stripped second line `int(...)` rejects, `load_settings` raises
`ValueError`, while a per-file line with fewer than four
whitespace-separated fields is silently skipped.  (The ASCII
restriction keeps the content inside the modelled domain of text-mode
line reading, `strip` and `int`.) -/
theorem claim_C8 :
    (load_settings none = .ok none) ∧
    (∀ content : List Char, asciiOnly content = true →
      pyParseInt (pyStrip ((pyReadlines content).getD 1 [])) = none →
      load_settings (some content) = .error .valueError) ∧
    (∀ (lines : List (List Char))
       (acc : List (List Char × Bool) × List (List Char × Bool) × List (List Char × Bool))
       (i : Nat),
      (pySplitWs (pyStrip (lines.getD (2 + i) []))).length < 4 →
      loadFileLineStep lines acc i = acc) := by
  refine ⟨rfl, fun content _ h => ?_, fun lines acc i h => ?_⟩
  · have h2 : pyParseInt (pyStrip ((pyReadlines content)[1]?.getD [])) = none := by
      rw [← List.getD_eq_getElem?_getD]; exact h
    simp [load_settings, h2]
  · rw [loadFileLineStep]
    simp only []
    rw [if_neg]
    omega

/-- C8 witness: the amended theorem applied to a corrupt count line and
to a too-short per-file line. -/
theorem claim_C8_witness :
    load_settings (some (s2l "d" ++ '\n' :: s2l "zz" ++ '\n' :: s2l "f" ++ '\n' :: s2l "g" ++ ['\n'])) =
      .error .valueError ∧
    loadFileLineStep [s2l "d", s2l "1", s2l "a b"] ([], [], []) 0 = ([], [], []) :=
  ⟨claim_C8.2.1 _ (by decide) (by decide),
   claim_C8.2.2 [s2l "d", s2l "1", s2l "a b"] ([], [], []) 0 (by decide)⟩

/-- Newline encoding leaves no newline characters behind. -/
theorem newline_not_mem_encodeDesc (d : List Char) : '\n' ∉ encodeDesc d := by
  induction d with
  | nil => simp [encodeDesc]
  | cons c t ih =>
    by_cases hc : c = '\n'
    · subst hc
      rw [encodeDesc]
      intro h
      rcases List.mem_append.1 h with h | h
      · simp [newlineMarker] at h
      · exact ih h
    · rw [encodeDesc]
      · intro h
        rcases List.mem_cons.1 h with h | h
        · exact hc h.symm
        · exact ih h
      · exact hc

/-- The encoded description has no carriage return when the
description itself has none (encoding only rewrites newlines, and the
marker contains none). -/
theorem cr_not_mem_encodeDesc (d : List Char) (hd : '\r' ∉ d) : '\r' ∉ encodeDesc d := by
  induction d with
  | nil => simp [encodeDesc]
  | cons c t ih =>
    have hdc : ¬ (c = '\r') := fun hh => hd (hh ▸ List.mem_cons_self c t)
    have hdt : '\r' ∉ t := fun hm => hd (List.mem_cons_of_mem c hm)
    by_cases hc : c = '\n'
    · subst hc
      rw [encodeDesc]
      intro h
      rcases List.mem_append.1 h with h | h
      · simp [newlineMarker] at h
      · exact ih hdt h
    · rw [encodeDesc]
      · intro h
        rcases List.mem_cons.1 h with h | h
        · exact hdc h.symm
        · exact ih hdt h
      · exact hc

/-- Printed bools contain no carriage return. -/
theorem cr_not_mem_pyShowBool (b : Bool) : '\r' ∉ pyShowBool b := by
  cases b <;> decide

/-- Unfolding of `decodeDesc` when the head cannot start the marker. -/
theorem decodeDesc_cons_ne (c : Char) (xs : List Char) (h : c ≠ '<') :
    decodeDesc (c :: xs) = c :: decodeDesc xs := by
  rw [decodeDesc]
  exact fun _ hc _ => h hc

/-- Decoding after encoding is the identity when the description
contains no `<` (then every marker occurrence is an encoded newline). -/
theorem decode_encode (d : List Char) (h : '<' ∉ d) : decodeDesc (encodeDesc d) = d := by
  induction d with
  | nil => simp [encodeDesc, decodeDesc]
  | cons c t ih =>
    simp at h
    by_cases hc : c = '\n'
    · subst hc
      rw [encodeDesc, newlineMarker]
      simp only [List.cons_append, List.nil_append]
      rw [decodeDesc, ih h.2]
    · rw [encodeDesc]
      swap
      · exact hc
      rw [decodeDesc_cons_ne c _ (fun hcc => h.1 hcc.symm), ih h.2]

/-- Every character printed by the decimal printer is a digit. -/
theorem showNatFuel_digits (fuel n : Nat) : ∀ c ∈ showNatFuel fuel n, c.isDigit = true := by
  induction fuel generalizing n with
  | zero => simp [showNatFuel]
  | succ fuel ih =>
    intro c hc
    rw [showNatFuel] at hc
    by_cases h10 : n < 10
    · rw [if_pos h10] at hc
      simp at hc
      subst hc
      interval_cases n <;> decide
    · rw [if_neg h10] at hc
      rcases List.mem_append.1 hc with h | h
      · exact ih (n / 10) c h
      · simp at h
        subst h
        have : n % 10 < 10 := Nat.mod_lt n (by omega)
        interval_cases hm : (n % 10) <;> simp_all <;> decide

/-- A digit character is not Python whitespace. -/
theorem isPySpace_eq_false_of_digit (c : Char) (h : c.isDigit = true) : isPySpace c = false := by
  have hs : ∀ x : Char, x.isDigit = false → (c == x) = false := by
    intro x hx
    by_cases hcx : c = x
    · subst hcx; simp_all
    · simp [hcx]
  rw [isPySpace, hs ' ' (by decide), hs '\t' (by decide), hs '\n' (by decide),
    hs '\r' (by decide), hs (Char.ofNat 11) (by decide), hs (Char.ofNat 12) (by decide),
    hs (Char.ofNat 28) (by decide), hs (Char.ofNat 29) (by decide),
    hs (Char.ofNat 30) (by decide), hs (Char.ofNat 31) (by decide)]
  rfl

/-- Reading one full line (free of both line-ending characters)
through the accumulator. -/
theorem pyReadlinesGo_line (a : List Char) (ha : '\n' ∉ a) (har : '\r' ∉ a)
    (cur rest : List Char) :
    pyReadlinesGo cur (a ++ '\n' :: rest) =
      (cur.reverse ++ a ++ ['\n']) :: pyReadlinesGo [] rest := by
  induction a generalizing cur with
  | nil => simp [pyReadlinesGo]
  | cons c t ih =>
    simp at ha har
    rw [List.cons_append, pyReadlinesGo]
    · rw [ih (fun hm => ha.2 hm) (fun hm => har.2 hm) (c :: cur)]
      simp
    · exact fun r2 hc _ => har.1 hc.symm
    · exact fun hc => har.1 hc.symm
    · exact fun hc => ha.1 hc.symm

/-- The lines returned by `readline` on a text assembled from
line-ending-free lines each terminated by a newline. -/
theorem pyReadlines_structured (L : List (List Char)) (hL : ∀ l ∈ L, '\n' ∉ l ∧ '\r' ∉ l) :
    pyReadlines ((L.map (fun l => l ++ ['\n'])).flatten) = L.map (fun l => l ++ ['\n']) := by
  induction L with
  | nil => simp [pyReadlines, pyReadlinesGo]
  | cons l L ih =>
    have h1 := hL l (List.mem_cons_self l L)
    have h2 : ∀ x ∈ L, '\n' ∉ x ∧ '\r' ∉ x := fun x hx => hL x (List.mem_cons_of_mem l hx)
    rw [List.map_cons, List.flatten_cons, pyReadlines, List.append_assoc,
      List.singleton_append, pyReadlinesGo_line l h1.1 h1.2 [] _]
    rw [pyReadlines] at ih
    rw [ih h2]
    simp

/-- Strip of a line whose both ends are non-whitespace (or which is
empty) recovers the line without its trailing newline. -/
theorem pyStrip_line (x : List Char) (hx : noWsEnds x = true) : pyStrip (x ++ ['\n']) = x := by
  rcases x with _ | ⟨a, t⟩
  · decide
  · rcases List.eq_nil_or_concat (a :: t) with hcon | ⟨y, b, hyb⟩
    · simp at hcon
    · rw [List.concat_eq_append] at hyb
      rw [noWsEnds] at hx
      simp only [List.head?_cons, Bool.and_eq_true] at hx
      have ha : isPySpace a = false := by
        rcases hx with ⟨h1, _⟩
        simpa using h1
      have hb : isPySpace b = false := by
        rcases hx with ⟨_, h2⟩
        rw [hyb, List.getLast?_concat] at h2
        simpa using h2
      rw [pyStrip, List.cons_append, List.dropWhile_cons, ha]
      simp only [Bool.false_eq_true, if_false]
      have hrev : ((a :: t) ++ ['\n']).reverse = '\n' :: (a :: t).reverse := by simp
      rw [← List.cons_append, hrev, List.dropWhile_cons]
      have hnl : isPySpace '\n' = true := by decide
      rw [hnl]
      simp only [if_true]
      rw [hyb]
      have : (y ++ [b]).reverse = b :: y.reverse := by simp
      rw [this, List.dropWhile_cons, hb]
      simp

/-- The printer never prints the empty string (positive fuel). -/
theorem showNatFuel_ne_nil (fuel n : Nat) (h : 0 < fuel) : showNatFuel fuel n ≠ [] := by
  rcases fuel with _ | fuel
  · omega
  · rw [showNatFuel]
    split_ifs <;> simp

/-- Digit parsing inverts the decimal printer (with enough fuel). -/
theorem parseDigits_showNatFuel : ∀ fuel n : Nat, n < fuel →
    parseDigits (showNatFuel fuel n) = some n := by
  intro fuel
  induction fuel with
  | zero => omega
  | succ fuel ih =>
    intro n hn
    by_cases h10 : n < 10
    · rw [showNatFuel, if_pos h10]
      interval_cases n <;> decide
    · rw [showNatFuel, if_neg h10]
      have hlt : n / 10 < fuel := by
        have h1 : n / 10 < n := Nat.div_lt_self (by omega) (by omega)
        omega
      have hfuel : 0 < fuel := by omega
      have he := showNatFuel_ne_nil fuel (n / 10) hfuel
      have ha : (showNatFuel fuel (n / 10)).all Char.isDigit = true := by
        rw [List.all_eq_true]
        exact showNatFuel_digits fuel (n / 10)
      have ihx := ih (n / 10) hlt
      rw [parseDigits, if_neg he, if_pos ha] at ihx
      have hfold : (showNatFuel fuel (n / 10)).foldl (fun a c => a * 10 + digitVal c) 0 = n / 10 := by
        simpa using ihx
      have hm : n % 10 < 10 := Nat.mod_lt n (by omega)
      have hdig : (natDigitChar (n % 10)).isDigit = true := by
        set m := n % 10 with hmm
        interval_cases m <;> decide
      have hdv : digitVal (natDigitChar (n % 10)) = n % 10 := by
        set m := n % 10 with hmm
        interval_cases m <;> decide
      rw [parseDigits, if_neg (by simp), if_pos]
      · rw [List.foldl_append, hfold]
        simp only [List.foldl_cons, List.foldl_nil]
        rw [hdv]
        congr 1
        have := Nat.div_add_mod n 10
        omega
      · rw [List.all_append, ha]
        simp [hdig]

/-- On an all-digit string the underscore-aware scanner is the digit
fold. -/
theorem intDigitsGo_digits (ds : List Char) (h : ∀ c ∈ ds, c.isDigit = true) :
    ∀ acc, intDigitsGo acc ds = some (ds.foldl (fun a c => a * 10 + digitVal c) acc) := by
  induction ds with
  | nil => intro acc; rfl
  | cons c t ih =>
    intro acc
    have hc : c.isDigit = true := h c (List.mem_cons_self c t)
    have hcu : ¬ (c = '_') := fun hh => by subst hh; simp at hc
    rw [intDigitsGo]
    · rw [if_pos hc, ih (fun x hx => h x (List.mem_cons_of_mem c hx))]
      rfl
    · exact fun d r2 hh _ => hcu hh
    · exact fun hh _ => hcu hh

/-- `int(...)` on an all-digit string takes the unsigned branch and
agrees with the digit fold. -/
theorem pyParseInt_of_digits (ds : List Char) (h : ∀ c ∈ ds, c.isDigit = true) (hne : ds ≠ []) :
    pyParseInt ds = (parseDigits ds).map (fun n => (n : Int)) := by
  rcases ds with _ | ⟨c, t⟩
  · simp at hne
  · have hc : c.isDigit = true := h c (List.mem_cons_self c t)
    have hcm : c ≠ '-' := by intro hh; subst hh; simp at hc
    have hcp : c ≠ '+' := by intro hh; subst hh; simp at hc
    rw [pyParseInt]
    · rw [parseIntBody, if_pos hc,
        intDigitsGo_digits t (fun x hx => h x (List.mem_cons_of_mem c hx)) (digitVal c),
        parseDigits, if_neg (by simp), if_pos (by rw [List.all_eq_true]; exact h)]
      simp [List.foldl_cons]
    · exact fun ds hh => absurd (List.cons.inj hh).1 hcm
    · exact fun ds hh => absurd (List.cons.inj hh).1 hcp

/-- `int(str(n))` recovers `n`. -/
theorem pyParseInt_pyShowNat (n : Nat) : pyParseInt (pyShowNat n) = some (n : Int) := by
  rw [pyShowNat, pyParseInt_of_digits _ (showNatFuel_digits (n + 1) n)
    (showNatFuel_ne_nil (n + 1) n (by omega))]
  rw [parseDigits_showNatFuel (n + 1) n (by omega)]
  rfl

/-- The whitespace splitter accumulates a whitespace-free word. -/
theorem pySplitWsGo_word (w : List Char) (hw : ∀ c ∈ w, isPySpace c = false) :
    ∀ (cur l : List Char), pySplitWsGo cur (w ++ l) = pySplitWsGo (w.reverse ++ cur) l := by
  induction w with
  | nil => intro cur l; simp
  | cons c t ih =>
    intro cur l
    have hc : isPySpace c = false := hw c (List.mem_cons_self c t)
    have ht : ∀ x ∈ t, isPySpace x = false := fun x hx => hw x (List.mem_cons_of_mem c hx)
    rw [List.cons_append, pySplitWsGo, hc]
    simp only [Bool.false_eq_true, if_false]
    rw [ih ht (c :: cur) l]
    congr 1
    simp

/-- Splitting after a completed word followed by a space. -/
theorem pySplitWs_word_space (w : List Char) (hne : w ≠ [])
    (hw : ∀ c ∈ w, isPySpace c = false) (rest : List Char) :
    pySplitWsGo [] (w ++ ' ' :: rest) = w :: pySplitWsGo [] rest := by
  rw [pySplitWsGo_word w hw [] (' ' :: rest)]
  rw [pySplitWsGo]
  have : isPySpace ' ' = true := by decide
  rw [this]
  simp only [if_true]
  rw [List.append_nil]
  rw [if_neg (by simpa using hne)]
  simp

/-- Splitting a final whitespace-free word. -/
theorem pySplitWs_word_end (w : List Char) (hne : w ≠ [])
    (hw : ∀ c ∈ w, isPySpace c = false) :
    pySplitWsGo [] w = [w] := by
  have := pySplitWsGo_word w hw [] []
  rw [List.append_nil] at this
  rw [this, pySplitWsGo, List.append_nil]
  rw [if_neg (by simpa using hne)]
  simp

/-- `str.split()` of a four-field line. -/
theorem pySplitWs_fileLine (w1 w2 w3 w4 : List Char)
    (h1 : w1 ≠ []) (hw1 : ∀ c ∈ w1, isPySpace c = false)
    (h2 : w2 ≠ []) (hw2 : ∀ c ∈ w2, isPySpace c = false)
    (h3 : w3 ≠ []) (hw3 : ∀ c ∈ w3, isPySpace c = false)
    (h4 : w4 ≠ []) (hw4 : ∀ c ∈ w4, isPySpace c = false) :
    pySplitWs (w1 ++ ' ' :: (w2 ++ ' ' :: (w3 ++ ' ' :: w4))) = [w1, w2, w3, w4] := by
  rw [pySplitWs, pySplitWs_word_space w1 h1 hw1, pySplitWs_word_space w2 h2 hw2,
    pySplitWs_word_space w3 h3 hw3, pySplitWs_word_end w4 h4 hw4]

/-- A comma-free string does not split. -/
theorem pySplitCommaSpace_no_comma (x : List Char) (h : ',' ∉ x) :
    pySplitCommaSpace x = [x] := by
  induction x with
  | nil => rfl
  | cons c t ih =>
    simp at h
    rw [pySplitCommaSpace]
    · rw [ih h.2]
    · exact fun rest hc _ => h.1 hc.symm

/-- Splitting at a comma-space boundary after a comma-free field. -/
theorem pySplitCommaSpace_boundary (x : List Char) (h : ',' ∉ x) (rest : List Char) :
    pySplitCommaSpace (x ++ ',' :: ' ' :: rest) = x :: pySplitCommaSpace rest := by
  induction x with
  | nil => simp [pySplitCommaSpace]
  | cons c t ih =>
    simp at h
    rw [List.cons_append, pySplitCommaSpace]
    · rw [ih h.2]
    · exact fun r hc _ => h.1 hc.symm

/-- `', '.join` followed by `split(', ')` recovers a nonempty list of
comma-free elements. -/
theorem pySplitCommaSpace_joinCommaSpace (L : List (List Char)) (hne : L ≠ [])
    (h : ∀ e ∈ L, ',' ∉ e) : pySplitCommaSpace (joinCommaSpace L) = L := by
  induction L with
  | nil => exact absurd rfl hne
  | cons x L ih =>
    rcases L with _ | ⟨y, L2⟩
    · rw [joinCommaSpace, pySplitCommaSpace_no_comma x (h x (List.mem_cons_self x []))]
    · rw [joinCommaSpace, pySplitCommaSpace_boundary x (h x (List.mem_cons_self x _))]
      rw [ih (by simp) (fun e he => h e (List.mem_cons_of_mem x he))]

/-- Dict assignment appends when the key is absent. -/
theorem dictInsert_not_mem (l : List (List Char × Bool)) (k : List Char) (v : Bool)
    (h : ∀ p ∈ l, p.1 ≠ k) : dictInsert l k v = l ++ [(k, v)] := by
  rw [dictInsert, if_neg]
  simp only [List.any_eq_true, not_exists, not_and]
  intro p hp
  simpa using h p hp

/-- Dict lookup finds the head entry. -/
theorem lookupB_head (k : List Char) (v : Bool) (l : List (List Char × Bool)) :
    lookupB ((k, v) :: l) k = v := by
  rw [lookupB, List.find?_cons]
  simp

/-- Dict lookup skips an entry with a different key. -/
theorem lookupB_cons_ne (k k2 : List Char) (v : Bool) (l : List (List Char × Bool))
    (h : k2 ≠ k) : lookupB ((k, v) :: l) k2 = lookupB l k2 := by
  rw [lookupB, List.find?_cons]
  have : ((k, v).1 == k2) = false := by simpa using fun hc => h hc.symm
  rw [this]
  rfl

/-- A dict with the same keys in the same order as `F` is recovered by
looking its values up along `F`'s keys. -/
theorem map_lookupB_eq (F R : List (List Char × Bool))
    (hkeys : R.map Prod.fst = F.map Prod.fst) (hnd : (F.map Prod.fst).Nodup) :
    F.map (fun p => (p.1, lookupB R p.1)) = R := by
  induction F generalizing R with
  | nil =>
    have : R = [] := by
      simpa using congrArg List.length hkeys
    rw [this]
    rfl
  | cons p F ih =>
    rcases R with _ | ⟨q, R2⟩
    · simp at hkeys
    · simp only [List.map_cons, List.cons.injEq] at hkeys
      rcases hkeys with ⟨hq, hrest⟩
      simp only [List.map_cons, List.nodup_cons] at hnd
      rcases hnd with ⟨hnotin, hnd2⟩
      rw [List.map_cons]
      have hq2 : q = (p.1, q.2) := by
        rcases q with ⟨qk, qv⟩
        simp at hq
        rw [hq]
      rw [hq2]
      congr 1
      · rw [lookupB_head]
      · have : ∀ r ∈ F, (fun p0 : List Char × Bool => (p0.1, lookupB ((p.1, q.2) :: R2) p0.1)) r =
            (fun p0 : List Char × Bool => (p0.1, lookupB R2 p0.1)) r := by
          intro r hr
          simp only []
          rw [lookupB_cons_ne]
          intro hc
          exact hnotin (hc ▸ List.mem_map_of_mem Prod.fst hr)
        rw [List.map_congr_left this]
        exact ih R2 hrest hnd2

/-- Introduce `noWsEnds` from facts about both ends. -/
theorem noWsEnds_intro (x : List Char)
    (h1 : ∀ c, x.head? = some c → isPySpace c = false)
    (h2 : ∀ c, x.getLast? = some c → isPySpace c = false) : noWsEnds x = true := by
  rw [noWsEnds]
  rcases hx : x.head? with _ | c
  · rcases hy : x.getLast? with _ | d
    · rfl
    · simp [h2 d hy]
  · rcases hy : x.getLast? with _ | d
    · simp [h1 c hx]
    · simp [h1 c hx, h2 d hy]

/-- A string all of whose characters are non-whitespace has clean ends. -/
theorem noWsEnds_of_all (x : List Char) (h : ∀ c ∈ x, isPySpace c = false) :
    noWsEnds x = true := by
  refine noWsEnds_intro x (fun c hc => h c ?_) (fun c hc => h c ?_)
  · exact List.mem_of_mem_head? hc
  · exact List.mem_of_mem_getLast? hc

/-- Head of an append with nonempty left part. -/
theorem head?_append_left (x y : List Char) (h : x ≠ []) : (x ++ y).head? = x.head? := by
  rcases x with _ | ⟨a, t⟩
  · exact absurd rfl h
  · simp

/-- Last of an append with nonempty right part. -/
theorem getLast?_append_right (x y : List Char) (h : y ≠ []) : (x ++ y).getLast? = y.getLast? := by
  rw [List.getLast?_eq_head?_reverse, List.getLast?_eq_head?_reverse, List.reverse_append]
  exact head?_append_left y.reverse x.reverse (by simpa using h)

/-- Characters of a comma-space join are separators or element
characters. -/
theorem mem_joinCommaSpace (L : List (List Char)) (c : Char) (h : c ∈ joinCommaSpace L) :
    c = ',' ∨ c = ' ' ∨ ∃ e ∈ L, c ∈ e := by
  induction L with
  | nil => simp [joinCommaSpace] at h
  | cons x L ih =>
    rcases L with _ | ⟨y, L2⟩
    · rw [joinCommaSpace] at h
      exact Or.inr (Or.inr ⟨x, List.mem_cons_self x [], h⟩)
    · rw [joinCommaSpace] at h
      rcases List.mem_append.1 h with h | h
      · exact Or.inr (Or.inr ⟨x, List.mem_cons_self x _, h⟩)
      · rcases List.mem_cons.1 h with h | h
        · exact Or.inl h
        · rcases List.mem_cons.1 h with h | h
          · exact Or.inr (Or.inl h)
          · rcases ih h with h | h | ⟨e, he, hc⟩
            · exact Or.inl h
            · exact Or.inr (Or.inl h)
            · exact Or.inr (Or.inr ⟨e, List.mem_cons_of_mem x he, hc⟩)

/-- Head of a comma-space join is the head of its first element. -/
theorem joinCommaSpace_head? (x : List Char) (L : List (List Char)) (hx : x ≠ []) :
    (joinCommaSpace (x :: L)).head? = x.head? := by
  rcases L with _ | ⟨y, L2⟩
  · rw [joinCommaSpace]
  · rw [joinCommaSpace]
    exact head?_append_left x _ hx

/-- A join of a list whose first element is nonempty is nonempty. -/
theorem joinCommaSpace_ne_nil (x : List Char) (L : List (List Char)) (hx : x ≠ []) :
    joinCommaSpace (x :: L) ≠ [] := by
  intro h
  have := joinCommaSpace_head? x L hx
  rw [h] at this
  rcases x with _ | ⟨a, t⟩
  · exact hx rfl
  · simp at this

/-- Last of a comma-space join is the last of its final element (all
elements nonempty). -/
theorem joinCommaSpace_getLast? (L : List (List Char)) (hL : ∀ e ∈ L, e ≠ []) :
    L ≠ [] → (joinCommaSpace L).getLast? = (L.getLast?.getD []).getLast? := by
  induction L with
  | nil => intro h; exact absurd rfl h
  | cons x0 L ih =>
    intro _
    rcases L with _ | ⟨y, L2⟩
    · rw [joinCommaSpace]
      simp
    · rw [joinCommaSpace]
      have hy : joinCommaSpace (y :: L2) ≠ [] :=
        joinCommaSpace_ne_nil y L2 (hL y (by simp))
      rw [getLast?_append_right _ _ (by simp)]
      have h1 : (',' :: ' ' :: joinCommaSpace (y :: L2) : List Char) =
          [',', ' '] ++ joinCommaSpace (y :: L2) := by simp
      rw [h1, getLast?_append_right _ _ hy]
      rw [ih (fun e he => hL e (List.mem_cons_of_mem x0 he)) (by simp)]
      rw [List.getLast?_cons_cons]

/-- Comparing a printed bool with the literal `True` recovers the bool. -/
theorem showBool_beq_trueLit (b : Bool) : (pyShowBool b == trueLit) = b := by
  cases b <;> decide

/-- The `load_settings` file loop rebuilds the three dicts entry by
entry, when line `2 + i + j` splits into the four fields of entry `j`
and all keys are fresh. -/
theorem loadFilesLoop_build (lines : List (List Char)) :
    ∀ (Q : List (List Char × Bool × Bool × Bool)) (i : Nat)
      (acc : List (List Char × Bool) × List (List Char × Bool) × List (List Char × Bool)),
      (∀ (j : Nat) (e : List Char × Bool × Bool × Bool), Q[j]? = some e →
        pySplitWs (pyStrip (lines.getD (2 + (i + j)) [])) =
          [e.1, pyShowBool e.2.1, pyShowBool e.2.2.1, pyShowBool e.2.2.2]) →
      (Q.map Prod.fst).Nodup →
      (∀ e ∈ Q, (∀ p ∈ acc.1, p.1 ≠ e.1) ∧ (∀ p ∈ acc.2.1, p.1 ≠ e.1) ∧
        (∀ p ∈ acc.2.2, p.1 ≠ e.1)) →
      loadFilesLoop lines i Q.length acc =
        (acc.1 ++ Q.map (fun e => (e.1, e.2.1)),
         acc.2.1 ++ Q.map (fun e => (e.1, e.2.2.1)),
         acc.2.2 ++ Q.map (fun e => (e.1, e.2.2.2))) := by
  intro Q
  induction Q with
  | nil =>
    intro i acc _ _ _
    simp [loadFilesLoop]
  | cons e Q ih =>
    intro i acc hline hnd hfresh
    have hlen : (e :: Q).length = Q.length + 1 := rfl
    rw [hlen, loadFilesLoop]
    have hstep : loadFileLineStep lines acc i =
        (acc.1 ++ [(e.1, e.2.1)], acc.2.1 ++ [(e.1, e.2.2.1)], acc.2.2 ++ [(e.1, e.2.2.2)]) := by
      have h0 := hline 0 e (by simp)
      simp only [Nat.add_zero] at h0
      rw [loadFileLineStep]
      simp only [h0]
      rw [if_pos (by simp)]
      simp only [List.getD_cons_zero, List.getD_cons_succ]
      have hf := hfresh e (List.mem_cons_self e Q)
      rw [dictInsert_not_mem acc.1 e.1 _ hf.1,
          dictInsert_not_mem acc.2.1 e.1 _ hf.2.1,
          dictInsert_not_mem acc.2.2 e.1 _ hf.2.2,
          showBool_beq_trueLit, showBool_beq_trueLit, showBool_beq_trueLit]
    rw [hstep]
    simp only [List.map_cons, List.nodup_cons] at hnd
    have hnotin := hnd.1
    have hline2 : ∀ (j : Nat) (e2 : List Char × Bool × Bool × Bool), Q[j]? = some e2 →
        pySplitWs (pyStrip (lines.getD (2 + (i + 1 + j)) [])) =
          [e2.1, pyShowBool e2.2.1, pyShowBool e2.2.2.1, pyShowBool e2.2.2.2] := by
      intro j e2 he2
      have hj1 : (e :: Q)[j + 1]? = some e2 := by simpa using he2
      have := hline (j + 1) e2 hj1
      have harith : 2 + (i + (j + 1)) = 2 + (i + 1 + j) := by omega
      rw [harith] at this
      exact this
    have hfresh2 : ∀ e2 ∈ Q,
        (∀ p ∈ acc.1 ++ [(e.1, e.2.1)], p.1 ≠ e2.1) ∧
        (∀ p ∈ acc.2.1 ++ [(e.1, e.2.2.1)], p.1 ≠ e2.1) ∧
        (∀ p ∈ acc.2.2 ++ [(e.1, e.2.2.2)], p.1 ≠ e2.1) := by
      intro e2 he2
      have hold := hfresh e2 (List.mem_cons_of_mem e he2)
      have hkey : e.1 ≠ e2.1 := by
        intro hc
        exact hnotin (hc ▸ List.mem_map_of_mem Prod.fst he2)
      refine ⟨?_, ?_, ?_⟩ <;> intro p hp <;> rcases List.mem_append.1 hp with hp | hp
      · exact hold.1 p hp
      · simp at hp; subst hp; exact hkey
      · exact hold.2.1 p hp
      · simp at hp; subst hp; exact hkey
      · exact hold.2.2 p hp
      · simp at hp; subst hp; exact hkey
    rw [ih (i + 1) _ hline2 hnd.2 hfresh2]
    simp

/-- Printed bools contain no newline. -/
theorem newline_not_mem_pyShowBool (b : Bool) : '\n' ∉ pyShowBool b := by
  cases b <;> decide

/-- Printed bools are nonempty. -/
theorem pyShowBool_ne_nil (b : Bool) : pyShowBool b ≠ [] := by
  cases b <;> decide

/-- Printed bools contain no whitespace. -/
theorem pyShowBool_no_ws (b : Bool) : ∀ c ∈ pyShowBool b, isPySpace c = false := by
  cases b <;> decide

/-- A key present in a dict's key list passes the membership test. -/
theorem hasKey_of_mem_keys (l : List (List Char × Bool)) (k : List Char)
    (h : k ∈ l.map Prod.fst) : hasKey l k = true := by
  rw [hasKey, List.any_eq_true]
  rcases List.mem_map.1 h with ⟨p, hp, hpk⟩
  exact ⟨p, hp, by simp [hpk]⟩

/-- A per-file line contains no newline when the key has no whitespace. -/
theorem newline_not_mem_fileLineOf (S : SettingsData) (p : List Char × Bool)
    (hk : ∀ c ∈ p.1, isPySpace c = false) : '\n' ∉ fileLineOf S p := by
  intro h
  rw [fileLineOf] at h
  rcases List.mem_append.1 h with h | h
  · rcases List.mem_append.1 h with h | h
    · rcases List.mem_append.1 h with h | h
      · exact absurd (hk '\n' h) (by decide)
      · rcases List.mem_cons.1 h with h | h
        · exact absurd h (by decide)
        · exact newline_not_mem_pyShowBool _ h
    · rcases List.mem_cons.1 h with h | h
      · exact absurd h (by decide)
      · exact newline_not_mem_pyShowBool _ h
  · rcases List.mem_cons.1 h with h | h
    · exact absurd h (by decide)
    · exact newline_not_mem_pyShowBool _ h

/-- A per-file line contains no carriage return when the key has no
whitespace. -/
theorem cr_not_mem_fileLineOf (S : SettingsData) (p : List Char × Bool)
    (hk : ∀ c ∈ p.1, isPySpace c = false) : '\r' ∉ fileLineOf S p := by
  intro h
  rw [fileLineOf] at h
  rcases List.mem_append.1 h with h | h
  · rcases List.mem_append.1 h with h | h
    · rcases List.mem_append.1 h with h | h
      · exact absurd (hk '\r' h) (by decide)
      · rcases List.mem_cons.1 h with h | h
        · exact absurd h (by decide)
        · exact cr_not_mem_pyShowBool _ h
    · rcases List.mem_cons.1 h with h | h
      · exact absurd h (by decide)
      · exact cr_not_mem_pyShowBool _ h
  · rcases List.mem_cons.1 h with h | h
    · exact absurd h (by decide)
    · exact cr_not_mem_pyShowBool _ h

/-- A per-file line has non-whitespace ends (nonempty whitespace-free
key; a printed bool ends the line). -/
theorem noWsEnds_fileLineOf (S : SettingsData) (p : List Char × Bool)
    (hne : p.1 ≠ []) (hk : ∀ c ∈ p.1, isPySpace c = false) :
    noWsEnds (fileLineOf S p) = true := by
  refine noWsEnds_intro _ (fun c hc => ?_) (fun c hc => ?_)
  · rw [fileLineOf] at hc
    rw [head?_append_left _ _ (by simp [hne]), head?_append_left _ _ (by simp [hne]),
      head?_append_left _ _ hne] at hc
    exact hk c (List.mem_of_mem_head? hc)
  · rw [fileLineOf] at hc
    rw [getLast?_append_right _ _ (by simp)] at hc
    rw [show (' ' :: pyShowBool (lookupB S.remove_functions p.1) : List Char) =
      [' '] ++ pyShowBool (lookupB S.remove_functions p.1) by simp] at hc
    rw [getLast?_append_right _ _ (pyShowBool_ne_nil _)] at hc
    exact pyShowBool_no_ws _ c (List.mem_of_mem_getLast? hc)

/-- `split()` of a per-file line yields the four fields. -/
theorem pySplitWs_fileLineOf (S : SettingsData) (p : List Char × Bool)
    (hne : p.1 ≠ []) (hk : ∀ c ∈ p.1, isPySpace c = false) :
    pySplitWs (fileLineOf S p) =
      [p.1, pyShowBool p.2, pyShowBool (lookupB S.remove_comments p.1),
       pyShowBool (lookupB S.remove_functions p.1)] := by
  rw [fileLineOf]
  rw [show (p.1 ++ ' ' :: pyShowBool p.2 ++
      ' ' :: pyShowBool (lookupB S.remove_comments p.1) ++
      ' ' :: pyShowBool (lookupB S.remove_functions p.1) : List Char) =
      p.1 ++ ' ' :: (pyShowBool p.2 ++ ' ' :: (pyShowBool (lookupB S.remove_comments p.1) ++
        ' ' :: pyShowBool (lookupB S.remove_functions p.1))) by
    simp [List.append_assoc, List.cons_append]]
  exact pySplitWs_fileLine p.1 (pyShowBool p.2) (pyShowBool (lookupB S.remove_comments p.1))
    (pyShowBool (lookupB S.remove_functions p.1)) hne hk
    (pyShowBool_ne_nil _) (pyShowBool_no_ws _)
    (pyShowBool_ne_nil _) (pyShowBool_no_ws _)
    (pyShowBool_ne_nil _) (pyShowBool_no_ws _)

/-- Under the key conditions, every per-file line is written, so the
written block is the flattened list of newline-terminated lines. -/
theorem settingsFileLines_eq (S : SettingsData)
    (hrck : S.remove_comments.map Prod.fst = S.selected_files.map Prod.fst)
    (hrfk : S.remove_functions.map Prod.fst = S.selected_files.map Prod.fst) :
    settingsFileLines S =
      ((S.selected_files.map (fileLineOf S)).map (fun l => l ++ ['\n'])).flatten := by
  rw [settingsFileLines, List.map_map]
  congr 1
  refine List.map_congr_left (fun p hp => ?_)
  have h1 : hasKey S.remove_comments p.1 = true := by
    refine hasKey_of_mem_keys _ _ ?_
    rw [hrck]
    exact List.mem_map_of_mem Prod.fst hp
  have h2 : hasKey S.remove_functions p.1 = true := by
    refine hasKey_of_mem_keys _ _ ?_
    rw [hrfk]
    exact List.mem_map_of_mem Prod.fst hp
  simp [h1, h2]

/-- The save file is the flattened list of its newline-terminated
lines: description, count, per-file lines, two exclusion lines. -/
theorem save_settings_as_lines (S : SettingsData)
    (hrck : S.remove_comments.map Prod.fst = S.selected_files.map Prod.fst)
    (hrfk : S.remove_functions.map Prod.fst = S.selected_files.map Prod.fst) :
    save_settings S =
      ((([encodeDesc S.description, pyShowNat S.selected_files.length] ++
         S.selected_files.map (fileLineOf S) ++
         [joinCommaSpace S.ignored_folders, joinCommaSpace S.ignored_files]).map
           (fun l => l ++ ['\n'])).flatten) := by
  rw [save_settings, settingsFileLines_eq S hrck hrfk]
  simp [List.map_append, List.flatten_append, List.append_assoc]

/-- The lines `readline` yields on a saved settings file. -/
theorem pyReadlines_save_settings (S : SettingsData)
    (hcr : '\r' ∉ S.description)
    (hrck : S.remove_comments.map Prod.fst = S.selected_files.map Prod.fst)
    (hrfk : S.remove_functions.map Prod.fst = S.selected_files.map Prod.fst)
    (hkeys : ∀ k ∈ S.selected_files.map Prod.fst, k ≠ [] ∧ ∀ c ∈ k, isPySpace c = false)
    (hgf : ∀ e ∈ S.ignored_folders, e ≠ [] ∧ ∀ c ∈ e, isPySpace c = false ∧ c ≠ ',')
    (hgi : ∀ e ∈ S.ignored_files, e ≠ [] ∧ ∀ c ∈ e, isPySpace c = false ∧ c ≠ ',') :
    pyReadlines (save_settings S) =
      ([encodeDesc S.description, pyShowNat S.selected_files.length] ++
       S.selected_files.map (fileLineOf S) ++
       [joinCommaSpace S.ignored_folders, joinCommaSpace S.ignored_files]).map
         (fun l => l ++ ['\n']) := by
  rw [save_settings_as_lines S hrck hrfk]
  refine pyReadlines_structured _ (fun l hl => ?_)
  simp only [List.mem_append, List.mem_cons] at hl
  rcases hl with ((hl | hl | hl) | hl) | (hl | hl | hl)
  · rw [hl]; exact ⟨newline_not_mem_encodeDesc _, cr_not_mem_encodeDesc _ hcr⟩
  · rw [hl]
    constructor
    · intro hc
      exact absurd (showNatFuel_digits _ _ '\n' hc) (by decide)
    · intro hc
      exact absurd (showNatFuel_digits _ _ '\r' hc) (by decide)
  · simp at hl
  · rcases List.mem_map.1 hl with ⟨p, hp, hpl⟩
    rw [← hpl]
    exact ⟨newline_not_mem_fileLineOf S p (hkeys p.1 (List.mem_map_of_mem Prod.fst hp)).2,
           cr_not_mem_fileLineOf S p (hkeys p.1 (List.mem_map_of_mem Prod.fst hp)).2⟩
  · rw [hl]
    constructor
    · intro hc
      rcases mem_joinCommaSpace _ _ hc with h | h | ⟨e, he, hce⟩
      · exact absurd h (by decide)
      · exact absurd h (by decide)
      · exact absurd ((hgf e he).2 '\n' hce).1 (by decide)
    · intro hc
      rcases mem_joinCommaSpace _ _ hc with h | h | ⟨e, he, hce⟩
      · exact absurd h (by decide)
      · exact absurd h (by decide)
      · exact absurd ((hgf e he).2 '\r' hce).1 (by decide)
  · rw [hl]
    constructor
    · intro hc
      rcases mem_joinCommaSpace _ _ hc with h | h | ⟨e, he, hce⟩
      · exact absurd h (by decide)
      · exact absurd h (by decide)
      · exact absurd ((hgi e he).2 '\n' hce).1 (by decide)
    · intro hc
      rcases mem_joinCommaSpace _ _ hc with h | h | ⟨e, he, hce⟩
      · exact absurd h (by decide)
      · exact absurd h (by decide)
      · exact absurd ((hgi e he).2 '\r' hce).1 (by decide)
  · simp at hl

/-- Indexing a list shaped like the saved file: a file line. -/
theorem getD_two_cons_append {α : Type} (a b : α) (M R : List α) (j : Nat) (d : α)
    (hj : j < M.length) : ([a, b] ++ M ++ R).getD (2 + j) d = M.getD j d := by
  have h1 : ([a, b] ++ M ++ R) = a :: b :: (M ++ R) := by simp
  have h2 : 2 + j = (j + 1) + 1 := by omega
  rw [h1, h2, List.getD_cons_succ, List.getD_cons_succ]
  rw [List.getD_eq_getElem?_getD, List.getElem?_append_left hj, ← List.getD_eq_getElem?_getD]

/-- Indexing a list shaped like the saved file: past the file lines. -/
theorem getD_two_cons_append_right {α : Type} (a b : α) (M R : List α) (i : Nat) (d : α) :
    ([a, b] ++ M ++ R).getD (2 + (M.length + i)) d = R.getD i d := by
  have h1 : ([a, b] ++ M ++ R) = a :: b :: (M ++ R) := by simp
  have h2 : 2 + (M.length + i) = ((M.length + i) + 1) + 1 := by omega
  rw [h1, h2, List.getD_cons_succ, List.getD_cons_succ]
  rw [List.getD_eq_getElem?_getD, List.getElem?_append_right (by omega)]
  rw [← List.getD_eq_getElem?_getD]
  congr 1
  omega

/-- Indexing a mapped list below its length. -/
theorem getD_map_lt {α β : Type} (f : α → β) (l : List α) (j : Nat) (d : β)
    (hj : j < l.length) : (l.map f).getD j d = f (l.get ⟨j, hj⟩) := by
  rw [List.getD_eq_getElem?_getD, List.getElem?_map, List.getElem?_eq_getElem hj]
  simp

/-- On the saved lines, the file loop reconstructs the three dicts. -/
theorem loadFilesLoop_save (S : SettingsData)
    (hnd : (S.selected_files.map Prod.fst).Nodup)
    (hrck : S.remove_comments.map Prod.fst = S.selected_files.map Prod.fst)
    (hrfk : S.remove_functions.map Prod.fst = S.selected_files.map Prod.fst)
    (hkeys : ∀ k ∈ S.selected_files.map Prod.fst, k ≠ [] ∧ ∀ c ∈ k, isPySpace c = false) :
    loadFilesLoop
      (([encodeDesc S.description, pyShowNat S.selected_files.length] ++
        S.selected_files.map (fileLineOf S) ++
        [joinCommaSpace S.ignored_folders, joinCommaSpace S.ignored_files]).map
          (fun l => l ++ ['\n']))
      0 S.selected_files.length ([], [], []) =
      (S.selected_files, S.remove_comments, S.remove_functions) := by
  have hQlen : S.selected_files.length =
      (S.selected_files.map (fun p => (p.1, p.2, lookupB S.remove_comments p.1,
        lookupB S.remove_functions p.1))).length := by simp
  nth_rewrite 2 [hQlen]
  rw [loadFilesLoop_build _ _ 0 ([], [], []) ?hline ?hnd2 ?hfresh]
  case hnd2 =>
    have h1 : (S.selected_files.map (fun p => (p.1, p.2, lookupB S.remove_comments p.1,
        lookupB S.remove_functions p.1))).map Prod.fst = S.selected_files.map Prod.fst := by
      rw [List.map_map]
      rfl
    rw [h1]
    exact hnd
  case hfresh =>
    intro e _
    exact ⟨fun p hp => absurd hp (List.not_mem_nil p),
           fun p hp => absurd hp (List.not_mem_nil p),
           fun p hp => absurd hp (List.not_mem_nil p)⟩
  case hline =>
    intro j e he
    rw [List.getElem?_map] at he
    rcases Option.map_eq_some'.1 he with ⟨p, hp, hFp⟩
    subst hFp
    have hj : j < S.selected_files.length := by
      by_contra hcon
      rw [List.getElem?_eq_none (by omega)] at hp
      cases hp
    have hpval : S.selected_files.get ⟨j, hj⟩ = p := by
      rw [List.get_eq_getElem]
      rw [List.getElem?_eq_getElem hj] at hp
      exact Option.some.inj hp
    have hpm : p ∈ S.selected_files := by
      rw [← hpval]
      exact List.get_mem S.selected_files j hj
    have hkp := hkeys p.1 (List.mem_map_of_mem Prod.fst hpm)
    have hz : 2 + (0 + j) = 2 + j := by omega
    rw [hz]
    rw [List.map_append, List.map_append]
    simp only [List.map_cons, List.map_nil]
    rw [getD_two_cons_append _ _ _ _ _ _ (by simpa using hj)]
    rw [List.map_map]
    rw [getD_map_lt _ _ j _ hj, hpval]
    have hstrip : pyStrip (((fun l => l ++ ['\n']) ∘ fileLineOf S) p) = fileLineOf S p :=
      pyStrip_line _ (noWsEnds_fileLineOf S p hkp.1 hkp.2)
    rw [hstrip, pySplitWs_fileLineOf S p hkp.1 hkp.2]
  · change ([] ++ _, [] ++ _, [] ++ _) = _
    simp only [List.nil_append]
    refine congrArg₂ Prod.mk ?_ (congrArg₂ Prod.mk ?_ ?_)
    · rw [List.map_map]
      have h1 : ((fun e : List Char × Bool × Bool × Bool => (e.1, e.2.1)) ∘
          (fun p : List Char × Bool => (p.1, p.2, lookupB S.remove_comments p.1,
            lookupB S.remove_functions p.1))) = id := by
        funext p
        rfl
      rw [h1, List.map_id]
    · rw [List.map_map]
      have h1 : ((fun e : List Char × Bool × Bool × Bool => (e.1, e.2.2.1)) ∘
          (fun p : List Char × Bool => (p.1, p.2, lookupB S.remove_comments p.1,
            lookupB S.remove_functions p.1))) =
          fun p : List Char × Bool => (p.1, lookupB S.remove_comments p.1) := by
        funext p
        rfl
      rw [h1]
      exact map_lookupB_eq S.selected_files S.remove_comments hrck hnd
    · rw [List.map_map]
      have h1 : ((fun e : List Char × Bool × Bool × Bool => (e.1, e.2.2.2)) ∘
          (fun p : List Char × Bool => (p.1, p.2, lookupB S.remove_comments p.1,
            lookupB S.remove_functions p.1))) =
          fun p : List Char × Bool => (p.1, lookupB S.remove_functions p.1) := by
        funext p
        rfl
      rw [h1]
      exact map_lookupB_eq S.selected_files S.remove_functions hrfk hnd

/-- First line of the saved file shape. -/
theorem getD_line0 {α : Type} (a b : α) (M R : List α) (d : α) :
    ([a, b] ++ M ++ R).getD 0 d = a := by
  rw [show ([a, b] ++ M ++ R) = a :: b :: (M ++ R) by simp]
  rfl

/-- Second line of the saved file shape. -/
theorem getD_line1 {α : Type} (a b : α) (M R : List α) (d : α) :
    ([a, b] ++ M ++ R).getD 1 d = b := by
  rw [show ([a, b] ++ M ++ R) = a :: b :: (M ++ R) by simp]
  rfl

/-- A comma-space join of nonempty whitespace-free elements is nonempty. -/
theorem joinCommaSpace_ne_nil_of (L : List (List Char)) (hne : L ≠ [])
    (h : ∀ e ∈ L, e ≠ [] ∧ ∀ c ∈ e, isPySpace c = false ∧ c ≠ ',') :
    joinCommaSpace L ≠ [] := by
  rcases List.exists_cons_of_ne_nil hne with ⟨x0, rest, rfl⟩
  exact joinCommaSpace_ne_nil x0 rest (h x0 (List.mem_cons_self x0 rest)).1

/-- A comma-space join of nonempty whitespace-free elements has
non-whitespace ends. -/
theorem noWsEnds_joinCommaSpace (L : List (List Char)) (hne : L ≠ [])
    (h : ∀ e ∈ L, e ≠ [] ∧ ∀ c ∈ e, isPySpace c = false ∧ c ≠ ',') :
    noWsEnds (joinCommaSpace L) = true := by
  refine noWsEnds_intro _ (fun c hc => ?_) (fun c hc => ?_)
  · rcases List.exists_cons_of_ne_nil hne with ⟨x0, rest, rfl⟩
    rw [joinCommaSpace_head? x0 rest (h x0 (List.mem_cons_self x0 rest)).1] at hc
    exact ((h x0 (List.mem_cons_self x0 rest)).2 c (List.mem_of_mem_head? hc)).1
  · rw [joinCommaSpace_getLast? L (fun e he => (h e he).1) hne] at hc
    rw [List.getLast?_eq_getLast L hne] at hc
    simp only [Option.getD_some] at hc
    have hlm : L.getLast hne ∈ L := List.getLast_mem hne
    exact ((h _ hlm).2 c (List.mem_of_mem_getLast? hc)).1

/-- C3 counterexample: saving settings whose description starts with a
space and reloading loses that space — `load_settings` applies
`strip()` to the description line — so the round trip is not exact. -/
theorem claim_C3_counterexample :
    load_settings (some (save_settings ⟨[' ', 'a'], [], [], [], [s2l "f"], [s2l "g"]⟩)) =
      .ok (some ⟨['a'], [], [], [], [s2l "f"], [s2l "g"]⟩) ∧
    load_settings (some (save_settings ⟨[' ', 'a'], [], [], [], [s2l "f"], [s2l "g"]⟩)) ≠
      .ok (some ⟨[' ', 'a'], [], [], [], [s2l "f"], [s2l "g"]⟩) := by
  refine ⟨by decide, by decide⟩

/-- C3 (amended): loading a just-saved settings file reproduces the
description, the per-file flags and the two exclusion sets exactly,
provided: the description is ASCII, contains no `<` and no carriage
return (text-mode reading ends a line at a lone `'\r'` too), and, once
newline-encoded, has no leading or trailing whitespace; the
selected-file keys are ASCII, nonempty, whitespace-free and
duplicate-free; the two flag dicts have exactly the selected files as
keys (in the same order); and both exclusion sets are nonempty with
ASCII, nonempty, whitespace-free, comma-free elements.  (Without these
conditions the round trip fails, see the counterexample; the ASCII
conditions keep the state inside the modelled domain of `strip`,
`split` and `int`.) -/
theorem claim_C3 (S : SettingsData)
    (hda : asciiOnly S.description = true)
    (hcr : '\r' ∉ S.description)
    (hlt : '<' ∉ S.description)
    (hdesc : noWsEnds (encodeDesc S.description) = true)
    (hnd : (S.selected_files.map Prod.fst).Nodup)
    (hrck : S.remove_comments.map Prod.fst = S.selected_files.map Prod.fst)
    (hrfk : S.remove_functions.map Prod.fst = S.selected_files.map Prod.fst)
    (hka : ∀ k ∈ S.selected_files.map Prod.fst, asciiOnly k = true)
    (hkeys : ∀ k ∈ S.selected_files.map Prod.fst, k ≠ [] ∧ ∀ c ∈ k, isPySpace c = false)
    (hgfne : S.ignored_folders ≠ [])
    (hgfa : ∀ e ∈ S.ignored_folders, asciiOnly e = true)
    (hgf : ∀ e ∈ S.ignored_folders, e ≠ [] ∧ ∀ c ∈ e, isPySpace c = false ∧ c ≠ ',')
    (hgine : S.ignored_files ≠ [])
    (hgia : ∀ e ∈ S.ignored_files, asciiOnly e = true)
    (hgi : ∀ e ∈ S.ignored_files, e ≠ [] ∧ ∀ c ∈ e, isPySpace c = false ∧ c ≠ ',') :
    load_settings (some (save_settings S)) = .ok (some S) := by
  have hlines := pyReadlines_save_settings S hcr hrck hrfk hkeys hgf hgi
  have hdesc1 : decodeDesc (pyStrip ((pyReadlines (save_settings S)).getD 0 [])) =
      S.description := by
    rw [hlines]
    simp only [List.map_append, List.map_cons, List.map_nil]
    rw [getD_line0, pyStrip_line _ hdesc, decode_encode _ hlt]
  have hnum : pyParseInt (pyStrip ((pyReadlines (save_settings S)).getD 1 [])) =
      some (S.selected_files.length : Int) := by
    rw [hlines]
    simp only [List.map_append, List.map_cons, List.map_nil]
    rw [getD_line1]
    have hne2 : noWsEnds (pyShowNat S.selected_files.length) = true := by
      refine noWsEnds_of_all _ (fun c hc => ?_)
      rw [pyShowNat] at hc
      exact isPySpace_eq_false_of_digit c (showNatFuel_digits _ _ c hc)
    rw [pyStrip_line _ hne2]
    exact pyParseInt_pyShowNat _
  have hgline : pyStrip ((pyReadlines (save_settings S)).getD
      (2 + S.selected_files.length) []) = joinCommaSpace S.ignored_folders := by
    rw [hlines]
    simp only [List.map_append, List.map_cons, List.map_nil]
    have hidx : 2 + S.selected_files.length =
        2 + (((S.selected_files.map (fileLineOf S)).map (fun l => l ++ ['\n'])).length + 0) := by
      simp
    rw [hidx, getD_two_cons_append_right]
    rw [show ([joinCommaSpace S.ignored_folders ++ ['\n'],
      joinCommaSpace S.ignored_files ++ ['\n']].getD 0 []) =
      joinCommaSpace S.ignored_folders ++ ['\n'] from rfl]
    exact pyStrip_line _ (noWsEnds_joinCommaSpace _ hgfne hgf)
  have hfline : pyStrip ((pyReadlines (save_settings S)).getD
      (3 + S.selected_files.length) []) = joinCommaSpace S.ignored_files := by
    rw [hlines]
    simp only [List.map_append, List.map_cons, List.map_nil]
    have hidx : 3 + S.selected_files.length =
        2 + (((S.selected_files.map (fileLineOf S)).map (fun l => l ++ ['\n'])).length + 1) := by
      simp
      omega
    rw [hidx, getD_two_cons_append_right]
    rw [show ([joinCommaSpace S.ignored_folders ++ ['\n'],
      joinCommaSpace S.ignored_files ++ ['\n']].getD 1 []) =
      joinCommaSpace S.ignored_files ++ ['\n'] from rfl]
    exact pyStrip_line _ (noWsEnds_joinCommaSpace _ hgine hgi)
  have hloop : loadFilesLoop (pyReadlines (save_settings S)) 0
      S.selected_files.length ([], [], []) =
      (S.selected_files, S.remove_comments, S.remove_functions) := by
    rw [hlines]
    exact loadFilesLoop_save S hnd hrck hrfk hkeys
  simp only [load_settings]
  rw [hnum]
  split
  next heq => exact absurd heq (by simp)
  next num heq =>
    have hn : num = (S.selected_files.length : Int) := (Option.some.inj heq).symm
    subst hn
    simp only [Int.toNat_ofNat]
    rw [hdesc1, hgline, hfline, hloop]
    rw [if_pos (joinCommaSpace_ne_nil_of _ hgfne hgf),
        if_pos (joinCommaSpace_ne_nil_of _ hgine hgi)]
    rw [pySplitCommaSpace_joinCommaSpace _ hgfne
          (fun e he hc => ((hgf e he).2 ',' hc).2 rfl),
        pySplitCommaSpace_joinCommaSpace _ hgine
          (fun e he hc => ((hgi e he).2 ',' hc).2 rfl)]

/-- C3 witness: a concrete settings state round-trips exactly. -/
theorem claim_C3_witness :
    load_settings (some (save_settings
      ⟨['d'], [(s2l "a.py", true)], [(s2l "a.py", true)], [(s2l "a.py", false)],
       [s2l "f"], [s2l "g"]⟩)) =
      .ok (some ⟨['d'], [(s2l "a.py", true)], [(s2l "a.py", true)], [(s2l "a.py", false)],
       [s2l "f"], [s2l "g"]⟩) :=
  claim_C3 ⟨['d'], [(s2l "a.py", true)], [(s2l "a.py", true)], [(s2l "a.py", false)],
      [s2l "f"], [s2l "g"]⟩
    (by decide) (by decide) (by decide) (by decide) (by decide) (by decide)
    (by decide) (by decide) (by decide) (by decide) (by decide) (by decide)
    (by decide) (by decide) (by decide)

mutual
/-- The text an item contributes is the rendering of its listed
entries. -/
theorem arborEntry_render (igf igfi : List (List Char)) (ind : Nat) :
    ∀ e : FSEntry, arborEntry igf igfi ind e = renderArborEntries (arborEntriesE igf igfi ind e)
  | .dir nm children => by
    rw [arborEntry, arborEntriesE]
    by_cases h1 : nm ∈ igfi
    · simp [h1, renderArborEntries]
    · by_cases h2 : nm ∈ igf
      · simp [h1, h2, renderArborEntries]
      · rw [get_arborescence_render children igf igfi (ind + 1)]
        simp [h1, h2, renderArborEntries, renderArborLine, List.append_assoc]
  | .file nm => by
    rw [arborEntry, arborEntriesE]
    by_cases h1 : nm ∈ igfi
    · simp [h1, renderArborEntries]
    · by_cases h2 : hasAllowedExt nm
      · simp [h1, h2, renderArborEntries, renderArborLine]
      · simp [h1, h2, renderArborEntries]
/-- The arborescence text is the rendering of the listed entries. -/
theorem get_arborescence_render :
    ∀ (f : FSForest) (igf igfi : List (List Char)) (ind : Nat),
      get_arborescence f igf igfi ind = renderArborEntries (arborEntriesF f igf igfi ind)
  | .nil, igf, igfi, ind => by
    rw [get_arborescence, arborEntriesF]
    simp [renderArborEntries]
  | .cons e rest, igf, igfi, ind => by
    rw [get_arborescence, arborEntriesF]
    rw [arborEntry_render igf igfi ind e, get_arborescence_render rest igf igfi ind]
    simp [renderArborEntries]
end

/-- Characterization of the files listed by the arborescence: exactly
the files with a recognized suffix, name not in the file-exclusion
set, reached through directories none of which is excluded (by either
set). -/
theorem mem_arborEntriesF_file :
    ∀ (f : FSForest) (igf igfi : List (List Char)) (ind d : Nat) (nm : List Char),
      ((d, nm, true) ∈ arborEntriesF f igf igfi ind ↔
        ∃ p, HasFileAt f p nm ∧ hasAllowedExt nm = true ∧ nm ∉ igfi ∧
          (∀ a ∈ p, a ∉ igf ∧ a ∉ igfi) ∧ d = ind + p.length)
  | .nil, igf, igfi, ind, d, nm => by
    rw [arborEntriesF]
    constructor
    · intro h
      simp at h
    · rintro ⟨p, hp, -⟩
      cases hp
  | .cons (.file fn) rest, igf, igfi, ind, d, nm => by
    rw [arborEntriesF, arborEntriesE]
    constructor
    · intro h
      rcases List.mem_append.1 h with h | h
      · by_cases h1 : fn ∈ igfi
        · simp [h1] at h
        · by_cases h2 : hasAllowedExt fn
          · simp [h1, h2] at h
            refine ⟨[], ?_, ?_, ?_, by simp, by simp [h.1]⟩
            · rw [h.2]
              exact HasFileAt.head fn rest
            · rw [h.2]; exact h2
            · rw [h.2]; exact h1
          · simp [h1, h2] at h
      · rcases (mem_arborEntriesF_file rest igf igfi ind d nm).1 h with ⟨p, hp, hx⟩
        exact ⟨p, HasFileAt.tail _ rest p nm hp, hx⟩
    · rintro ⟨p, hp, hext, hni, hanc, hd⟩
      cases hp with
      | head =>
        refine List.mem_append.2 (Or.inl ?_)
        simp only [List.length_nil, Nat.add_zero] at hd
        simp [hni, hext, hd]
      | tail e rest p nm hp2 =>
        refine List.mem_append.2 (Or.inr ?_)
        exact (mem_arborEntriesF_file rest igf igfi ind d nm).2 ⟨p, hp2, hext, hni, hanc, hd⟩
  | .cons (.dir dn cs) rest, igf, igfi, ind, d, nm => by
    rw [arborEntriesF, arborEntriesE]
    constructor
    · intro h
      rcases List.mem_append.1 h with h | h
      · by_cases h1 : dn ∈ igfi
        · simp [h1] at h
        · by_cases h2 : dn ∈ igf
          · simp [h1, h2] at h
          · rw [if_neg (by simpa using h1), if_neg (by simpa using h2)] at h
            rcases List.mem_cons.1 h with h | h
            · injection h with ha hb
              injection hb with hc hdd
              cases hdd
            · rcases (mem_arborEntriesF_file cs igf igfi (ind + 1) d nm).1 h with
                ⟨p2, hp2, hext, hni, hanc, hd⟩
              refine ⟨dn :: p2, HasFileAt.under dn cs rest p2 nm hp2, hext, hni, ?_, ?_⟩
              · intro a ha
                rcases List.mem_cons.1 ha with ha | ha
                · rw [ha]; exact ⟨h2, h1⟩
                · exact hanc a ha
              · simp [hd]; omega
      · rcases (mem_arborEntriesF_file rest igf igfi ind d nm).1 h with ⟨p, hp, hx⟩
        exact ⟨p, HasFileAt.tail _ rest p nm hp, hx⟩
    · rintro ⟨p, hp, hext, hni, hanc, hd⟩
      cases hp with
      | tail e rest p nm hp2 =>
        refine List.mem_append.2 (Or.inr ?_)
        exact (mem_arborEntriesF_file rest igf igfi ind d nm).2 ⟨p, hp2, hext, hni, hanc, hd⟩
      | under d2 cs2 rest2 p2 nm hp2 =>
        refine List.mem_append.2 (Or.inl ?_)
        have hdn := hanc dn (List.mem_cons_self dn p2)
        rw [if_neg (by simpa using hdn.2), if_neg (by simpa using hdn.1)]
        refine List.mem_cons.2 (Or.inr ?_)
        refine (mem_arborEntriesF_file cs igf igfi (ind + 1) d nm).2
          ⟨p2, hp2, hext, hni, fun a ha => hanc a (List.mem_cons_of_mem dn ha), ?_⟩
        simp at hd
        omega

/-- Characterization of the directories listed by the arborescence:
exactly the directories excluded by neither set, reached through
directories excluded by neither set. -/
theorem mem_arborEntriesF_dir :
    ∀ (f : FSForest) (igf igfi : List (List Char)) (ind d : Nat) (nm : List Char),
      ((d, nm, false) ∈ arborEntriesF f igf igfi ind ↔
        ∃ p, HasDirAt f p nm ∧ nm ∉ igf ∧ nm ∉ igfi ∧
          (∀ a ∈ p, a ∉ igf ∧ a ∉ igfi) ∧ d = ind + p.length)
  | .nil, igf, igfi, ind, d, nm => by
    rw [arborEntriesF]
    constructor
    · intro h
      simp at h
    · rintro ⟨p, hp, -⟩
      cases hp
  | .cons (.file fn) rest, igf, igfi, ind, d, nm => by
    rw [arborEntriesF, arborEntriesE]
    constructor
    · intro h
      rcases List.mem_append.1 h with h | h
      · by_cases h1 : fn ∈ igfi
        · simp [h1] at h
        · by_cases h2 : hasAllowedExt fn
          · simp [h1, h2] at h
          · simp [h1, h2] at h
      · rcases (mem_arborEntriesF_dir rest igf igfi ind d nm).1 h with ⟨p, hp, hx⟩
        exact ⟨p, HasDirAt.tail _ rest p nm hp, hx⟩
    · rintro ⟨p, hp, hni1, hni2, hanc, hd⟩
      cases hp with
      | tail e rest p nm hp2 =>
        refine List.mem_append.2 (Or.inr ?_)
        exact (mem_arborEntriesF_dir rest igf igfi ind d nm).2 ⟨p, hp2, hni1, hni2, hanc, hd⟩
  | .cons (.dir dn cs) rest, igf, igfi, ind, d, nm => by
    rw [arborEntriesF, arborEntriesE]
    constructor
    · intro h
      rcases List.mem_append.1 h with h | h
      · by_cases h1 : dn ∈ igfi
        · simp [h1] at h
        · by_cases h2 : dn ∈ igf
          · simp [h1, h2] at h
          · rw [if_neg (by simpa using h1), if_neg (by simpa using h2)] at h
            rcases List.mem_cons.1 h with h | h
            · injection h with ha hb
              injection hb with hc hdd
              refine ⟨[], ?_, ?_, ?_, by simp, by simp [ha]⟩
              · rw [hc]
                exact HasDirAt.head dn cs rest
              · rw [hc]; exact h2
              · rw [hc]; exact h1
            · rcases (mem_arborEntriesF_dir cs igf igfi (ind + 1) d nm).1 h with
                ⟨p2, hp2, hni1, hni2, hanc, hd⟩
              refine ⟨dn :: p2, HasDirAt.under dn cs rest p2 nm hp2, hni1, hni2, ?_, ?_⟩
              · intro a ha
                rcases List.mem_cons.1 ha with ha | ha
                · rw [ha]; exact ⟨h2, h1⟩
                · exact hanc a ha
              · simp [hd]; omega
      · rcases (mem_arborEntriesF_dir rest igf igfi ind d nm).1 h with ⟨p, hp, hx⟩
        exact ⟨p, HasDirAt.tail _ rest p nm hp, hx⟩
    · rintro ⟨p, hp, hni1, hni2, hanc, hd⟩
      cases hp with
      | head =>
        refine List.mem_append.2 (Or.inl ?_)
        rw [if_neg (by simpa using hni2), if_neg (by simpa using hni1)]
        simp only [List.length_nil, Nat.add_zero] at hd
        simp [hd]
      | tail e rest p nm hp2 =>
        refine List.mem_append.2 (Or.inr ?_)
        exact (mem_arborEntriesF_dir rest igf igfi ind d nm).2 ⟨p, hp2, hni1, hni2, hanc, hd⟩
      | under d2 cs2 rest2 p2 nm hp2 =>
        refine List.mem_append.2 (Or.inl ?_)
        have hdn := hanc dn (List.mem_cons_self dn p2)
        rw [if_neg (by simpa using hdn.2), if_neg (by simpa using hdn.1)]
        refine List.mem_cons.2 (Or.inr ?_)
        refine (mem_arborEntriesF_dir cs igf igfi (ind + 1) d nm).2
          ⟨p2, hp2, hni1, hni2, fun a ha => hanc a (List.mem_cons_of_mem dn ha), ?_⟩
        simp at hd
        omega

/-- C9: the arborescence text renders exactly the entries listed by
the traversal; a file is listed iff it has a recognized suffix, is not
in the file-exclusion set, and every directory on its path is in
neither exclusion set; a directory is listed iff it is in neither
exclusion set and every directory on its path is in neither exclusion
set.  In particular a directory whose name is in the
directory-exclusion set is not listed and contributes no descendants. -/
theorem claim_C9 :
    (∀ (f : FSForest) (igf igfi : List (List Char)) (ind : Nat),
      get_arborescence f igf igfi ind = renderArborEntries (arborEntriesF f igf igfi ind)) ∧
    (∀ (f : FSForest) (igf igfi : List (List Char)) (ind d : Nat) (nm : List Char),
      ((d, nm, true) ∈ arborEntriesF f igf igfi ind ↔
        ∃ p, HasFileAt f p nm ∧ hasAllowedExt nm = true ∧ nm ∉ igfi ∧
          (∀ a ∈ p, a ∉ igf ∧ a ∉ igfi) ∧ d = ind + p.length)) ∧
    (∀ (f : FSForest) (igf igfi : List (List Char)) (ind d : Nat) (nm : List Char),
      ((d, nm, false) ∈ arborEntriesF f igf igfi ind ↔
        ∃ p, HasDirAt f p nm ∧ nm ∉ igf ∧ nm ∉ igfi ∧
          (∀ a ∈ p, a ∉ igf ∧ a ∉ igfi) ∧ d = ind + p.length)) :=
  ⟨get_arborescence_render, mem_arborEntriesF_file, mem_arborEntriesF_dir⟩

/-- C9 witness: in a tree with an excluded directory `venv` holding
`x.py` and a top-level `b.py`, the arborescence lists exactly `b.py`;
obtained by applying the characterization at this concrete tree. -/
theorem claim_C9_witness :
    get_arborescence (.cons (.dir (s2l "venv") (.cons (.file (s2l "x.py")) .nil))
        (.cons (.file (s2l "b.py")) .nil)) [s2l "venv"] [] 0 =
      renderArborEntries (arborEntriesF
        (.cons (.dir (s2l "venv") (.cons (.file (s2l "x.py")) .nil))
          (.cons (.file (s2l "b.py")) .nil)) [s2l "venv"] [] 0) ∧
    get_arborescence (.cons (.dir (s2l "venv") (.cons (.file (s2l "x.py")) .nil))
        (.cons (.file (s2l "b.py")) .nil)) [s2l "venv"] [] 0 = s2l "- b.py" ++ ['\n'] :=
  ⟨claim_C9.1 _ [s2l "venv"] [] 0, by decide⟩

/-- The parent operation keeps the absolute flag. -/
theorem parent_isAbs (p : PyPath) : p.parent.isAbs = p.isAbs := by
  rw [PyPath.parent]
  rcases hp : p.comps with _ | ⟨c, t⟩
  · rfl
  · rfl

/-- On a relative path, the loop of `is_parent_ignored` terminates and
reports whether any component's name lies in the ignored set, given
fuel exceeding the component count. -/
theorem ipiLoop_rel (igf : List (List Char)) :
    ∀ (l : List (List Char)) (fuel : Nat), l.length + 1 ≤ fuel →
      ipiLoop fuel ⟨false, l⟩ igf = some (l.any (fun c => igf.contains c)) := by
  intro l
  induction l using List.reverseRecOn with
  | nil =>
    intro fuel hf
    rcases fuel with _ | f
    · omega
    · rw [ipiLoop]
      simp [PyPath.dot]
  | append_singleton xs x ih =>
    intro fuel hf
    rcases fuel with _ | f
    · omega
    · rw [ipiLoop]
      rw [if_neg (by simp [PyPath.dot])]
      have hname : (PyPath.mk false (xs ++ [x])).pname = x := by
        rw [PyPath.pname]
        simp
      rw [hname]
      by_cases hx : igf.contains x
      · rw [if_pos hx]
        simp at hx
        simp [hx]
      · rw [if_neg hx]
        have hpar : (PyPath.mk false (xs ++ [x])).parent = ⟨false, xs⟩ := by
          rw [PyPath.parent]
          simp
        rw [hpar, ih f (by simp at hf ⊢; omega)]
        simp at hx
        simp [hx]

/-- Iterating `parent` from an absolute path never reaches `Path('.')`. -/
theorem parent_iterate_abs (cs : List (List Char)) :
    ∀ n : Nat, (fun p : PyPath => p.parent)^[n] ⟨true, cs⟩ ≠ PyPath.dot := by
  have hiter : ∀ (n : Nat) (p : PyPath), ((fun p : PyPath => p.parent)^[n] p).isAbs = p.isAbs := by
    intro n
    induction n with
    | zero => intro p; rfl
    | succ n ih =>
      intro p
      rw [Function.iterate_succ_apply, ih, parent_isAbs]
  intro n hc
  have h1 := hiter n ⟨true, cs⟩
  rw [hc] at h1
  simp [PyPath.dot] at h1

/-- On an absolute path, the loop can never exit through the
`Path('.')` test (it either finds an ignored ancestor or runs forever). -/
theorem ipiLoop_abs_ne_false (igf : List (List Char)) :
    ∀ (fuel : Nat) (cs : List (List Char)), ipiLoop fuel ⟨true, cs⟩ igf ≠ some false := by
  intro fuel
  induction fuel with
  | zero => intro cs; rw [ipiLoop]; simp
  | succ f ih =>
    intro cs
    rw [ipiLoop]
    rw [if_neg (by simp [PyPath.dot])]
    by_cases hx : igf.contains (PyPath.mk true cs).pname
    · rw [if_pos hx]
      simp
    · rw [if_neg hx]
      have hpar : (PyPath.mk true cs).parent = ⟨true, cs.dropLast⟩ := by
        rw [PyPath.parent]
        rcases cs with _ | ⟨c, t⟩
        · rfl
        · rfl
      rw [hpar]
      exact ih cs.dropLast

/-- C10: on a relative path, `is_parent_ignored` terminates (with fuel
beyond the component count) and returns `True` exactly when the name
of some proper ancestor directory — some component other than the
final file name — is in the ignored set; the relative-path
precondition is essential: from an absolute path, iterating `parent`
never reaches `Path('.')`, so the loop can never exit through its
stopping test. -/
theorem claim_C10 :
    (∀ (comps igf : List (List Char)) (fuel : Nat), comps.length + 1 ≤ fuel →
      is_parent_ignored fuel ⟨false, comps⟩ igf =
          some (comps.dropLast.any (fun c => igf.contains c)) ∧
        ((comps.dropLast.any (fun c => igf.contains c)) = true ↔
          ∃ c ∈ comps.dropLast, c ∈ igf)) ∧
    (∀ (cs : List (List Char)) (n : Nat),
      (fun p : PyPath => p.parent)^[n] ⟨true, cs⟩ ≠ PyPath.dot) ∧
    (∀ (cs igf : List (List Char)) (fuel : Nat),
      ipiLoop fuel ⟨true, cs⟩ igf ≠ some false) := by
  refine ⟨fun comps igf fuel hf => ⟨?_, by simp⟩, fun cs n => parent_iterate_abs cs n,
    fun cs igf fuel => ipiLoop_abs_ne_false igf fuel cs⟩
  rw [is_parent_ignored]
  have hpar : (PyPath.mk false comps).parent = ⟨false, comps.dropLast⟩ := by
    rw [PyPath.parent]
    rcases comps with _ | ⟨c, t⟩
    · rfl
    · rfl
  rw [hpar]
  refine ipiLoop_rel igf comps.dropLast fuel ?_
  have := List.length_dropLast comps
  omega

/-- C10 witness: a concrete relative path `a/b.py` with `a` ignored. -/
theorem claim_C10_witness :
    is_parent_ignored 3 ⟨false, [s2l "a", s2l "b.py"]⟩ [s2l "a"] = some true := by
  have h := (claim_C10.1 [s2l "a", s2l "b.py"] [s2l "a"] 3 (by decide)).1
  rw [h]
  decide

/-- C1: evaluation of the stripper at the failing input `x = """a"""`
(a triple-quoted string in non-docstring position).  The input
tokenizes, the triple-quoted literal occurs in it, and the output is
exactly `x = ` followed by the newline: the literal was deleted even
though the claim (and the comment at source line 75) says a
triple-quoted string that is not a docstring is kept. -/
theorem claim_C1 :
    remove_comments_and_docstrings
        (s2l "x = " ++ [dqc, dqc, dqc, 'a', dqc, dqc, dqc, '\n']) =
      some (s2l "x = " ++ ['\n']) ∧
    [dqc, dqc, dqc, 'a', dqc, dqc, dqc] <:+:
        (s2l "x = " ++ [dqc, dqc, dqc, 'a', dqc, dqc, dqc, '\n']) ∧
    ¬ ([dqc, dqc, dqc, 'a', dqc, dqc, dqc] <:+: (s2l "x = " ++ ['\n'])) := by
  refine ⟨by decide, by decide, by decide⟩

